import Mathlib

/-
Verification development for the plasmactl-model composition core
(dependency resolver, git fetcher authentication chain, merge builder).

The Go sources are shallowly embedded:
* pure string manipulation is modelled over lists of characters,
* filesystem walks are modelled as explicit lists of walked entries,
* the git transport, keyring and yaml parser are modelled as oracles
  (record fields giving the outcome of each external call),
* Go maps used as string-keyed dictionaries are modelled as
  insertion-ordered association lists; where Go iterates a map in
  unspecified order the iteration order is an explicit parameter.

Each claim is stated over these definitions; the source file and
function each definition embeds is recorded next to it.
-/

namespace PlasmaModel

/-! ### Generic association lists (Go string-keyed maps with insertion order) -/

/-- Lookup in an association list, first binding wins. -/
def assocGet {α : Type} [DecidableEq α] {β : Type} : List (α × β) → α → Option β
  | [], _ => none
  | (k, v) :: rest, n => if k = n then some v else assocGet rest n

/-! ## Authentication fallback chain
Embeds gitDownloader.tryDownload and gitDownloader.fetchRemotes together
with keyringWrapper.getForURL and keyringWrapper.getForBaseURL.
The outcome of every external call (git transport, keyring, tty prompt)
is a field of a world record; the functions below replay the Go control
flow over those outcomes. -/

/-- Errors a go-git clone can return, as distinguished by tryDownload:
transport.ErrAuthenticationRequired, transport.ErrAuthorizationFailed,
anything else. -/
inductive CloneErr
  | authenticationRequired
  | authorizationFailed
  | other
deriving DecidableEq, Repr

/-- Errors a go-git fetch can return, as distinguished by fetchRemotes;
git.NoErrAlreadyUpToDate is an error value in go-git. -/
inductive FetchErr
  | authenticationRequired
  | authorizationFailed
  | alreadyUpToDate
  | other
deriving DecidableEq, Repr

/-- Keyring lookup failures distinguished by keyringWrapper.getForURL:
keyring.ErrNotFound, keyring.ErrEmptyPass, anything else (malformed). -/
inductive KeyringErr
  | notFound
  | emptyPass
  | malformed
deriving DecidableEq, Repr

/-- The authenticationMode constants of the git downloader. -/
inductive AuthMode
  | authenticationModeNone
  | authenticationModeKeyringGlobal
  | authenticationModeKeyring
  | authenticationModeManual
deriving DecidableEq, Repr

/-- The list iterated by tryDownload and fetchRemotes. -/
def authModes : List AuthMode :=
  [.authenticationModeNone, .authenticationModeKeyringGlobal,
   .authenticationModeKeyring, .authenticationModeManual]

/-- Errors surfaced by the download/fetch attempt functions. -/
inductive GoErr
  | cloneErr (e : CloneErr)
  | fetchErr (e : FetchErr)
  | keyringErr (e : KeyringErr)
  | keyringMalformedMsg
  | promptErr
  | addItemErr
deriving DecidableEq, Repr

/-- Outcomes of the keyring and of the tty prompt during one chain run. -/
structure KeyringState where
  lookupHost : Option KeyringErr
  lookupURL : Option KeyringErr
  interactive : Bool
  promptOk : Bool
  addOk : Bool
deriving Repr

/-- keyringWrapper.getForURL: exact-URL lookup; on keyring.ErrNotFound in
interactive mode the credentials are requested from the tty and stored.
Returns the error the Go function would return, none on success. -/
def getForURL (k : KeyringState) : Option GoErr :=
  match k.lookupURL with
  | none => none
  | some .emptyPass => some (.keyringErr .emptyPass)
  | some .malformed => some .keyringMalformedMsg
  | some .notFound =>
    if !k.interactive then some (.keyringErr .notFound)
    else if !k.promptOk then some .promptErr
    else if !k.addOk then some .addItemErr
    else none

/-- World for one tryDownload call: the result each PlainCloneContext
attempt would have under each authentication mode, plus keyring state. -/
structure AuthWorld where
  keyring : KeyringState
  cloneAnon : Option CloneErr
  cloneHost : Option CloneErr
  cloneURL : Option CloneErr
  cloneManual : Option CloneErr
deriving Repr

/-- The literal abort condition of tryDownload and fetchRemotes at the
authenticationModeKeyringGlobal step, from the source:
not ErrAuthorizationFailed or-else not ErrAuthenticationRequired. -/
def goGlobalReturnCond (e : CloneErr) : Bool :=
  !(e == CloneErr.authorizationFailed) || !(e == CloneErr.authenticationRequired)

/-- Same literal condition at the keyring-global step of fetchRemotes. -/
def goGlobalReturnCondFetch (e : FetchErr) : Bool :=
  !(e == FetchErr.authorizationFailed) || !(e == FetchErr.authenticationRequired)

/-- Outcome of one authentication step: success breaks the loop,
advance moves to the next mode, abort returns the error. -/
inductive StepOutcome
  | success
  | advance
  | abort (e : GoErr)
deriving DecidableEq, Repr

/-- One iteration of the tryDownload loop body, per authentication mode,
replaying gitDownloader.tryDownload. -/
def tryDownloadStep (w : AuthWorld) : AuthMode → StepOutcome
  | .authenticationModeNone =>
    match w.cloneAnon with
    | none => .success
    | some e =>
      if e = .authenticationRequired then .advance else .abort (.cloneErr e)
  | .authenticationModeKeyringGlobal =>
    match w.keyring.lookupHost with
    | some .notFound => .advance
    | some e => .abort (.keyringErr e)
    | none =>
      match w.cloneHost with
      | none => .success
      | some e =>
        if goGlobalReturnCond e then .abort (.cloneErr e) else .advance
  | .authenticationModeKeyring =>
    match getForURL w.keyring with
    | some e => .abort e
    | none =>
      match w.cloneURL with
      | none => .success
      | some e =>
        if (e = .authorizationFailed ∨ e = .authenticationRequired)
            ∧ w.keyring.interactive then .advance
        else .abort (.cloneErr e)
  | .authenticationModeManual =>
    if !w.keyring.promptOk then .abort .promptErr
    else
      match w.cloneManual with
      | none => .success
      | some e => .abort (.cloneErr e)

/-- The tryDownload loop over a list of modes. Returns the modes whose
step body ran (the instrumented trace) and the final error, none on
success; falling off the end of the loop returns nil in Go. -/
def tryDownloadLoop (w : AuthWorld) : List AuthMode → List AuthMode × Option GoErr
  | [] => ([], none)
  | m :: rest =>
    match tryDownloadStep w m with
    | .success => ([m], none)
    | .abort e => ([m], some e)
    | .advance =>
      let r := tryDownloadLoop w rest
      (m :: r.1, r.2)

/-- gitDownloader.tryDownload: the authentication chain around
git.PlainCloneContext. -/
def tryDownload (w : AuthWorld) : List AuthMode × Option GoErr :=
  tryDownloadLoop w authModes

/-- World for one fetchRemotes call (one remote): the result each
rem.Fetch attempt would have under each authentication mode. -/
structure FetchWorld where
  keyring : KeyringState
  fetchAnon : Option FetchErr
  fetchHost : Option FetchErr
  fetchURL : Option FetchErr
  fetchManual : Option FetchErr
deriving Repr

/-- One iteration of the fetchRemotes loop body, per authentication
mode, replaying gitDownloader.fetchRemotes; NoErrAlreadyUpToDate is
treated as success (the Go code returns nil on it). -/
def fetchRemotesStep (w : FetchWorld) : AuthMode → StepOutcome
  | .authenticationModeNone =>
    match w.fetchAnon with
    | none => .success
    | some e =>
      if e = .authenticationRequired then .advance
      else if e = .alreadyUpToDate then .success
      else .abort (.fetchErr e)
  | .authenticationModeKeyringGlobal =>
    match w.keyring.lookupHost with
    | some .notFound => .advance
    | some e => .abort (.keyringErr e)
    | none =>
      match w.fetchHost with
      | none => .success
      | some e =>
        if e = .alreadyUpToDate then .success
        else if goGlobalReturnCondFetch e then .abort (.fetchErr e)
        else .advance
  | .authenticationModeKeyring =>
    match getForURL w.keyring with
    | some e => .abort e
    | none =>
      match w.fetchURL with
      | none => .success
      | some e =>
        if (e = .authorizationFailed ∨ e = .authenticationRequired)
            ∧ w.keyring.interactive then .advance
        else if e = .alreadyUpToDate then .success
        else .abort (.fetchErr e)
  | .authenticationModeManual =>
    if !w.keyring.promptOk then .abort .promptErr
    else
      match w.fetchManual with
      | none => .success
      | some e =>
        if e = .alreadyUpToDate then .success else .abort (.fetchErr e)

/-- The fetchRemotes loop over a list of modes, for a single remote. -/
def fetchRemotesLoop (w : FetchWorld) : List AuthMode → List AuthMode × Option GoErr
  | [] => ([], none)
  | m :: rest =>
    match fetchRemotesStep w m with
    | .success => ([m], none)
    | .abort e => ([m], some e)
    | .advance =>
      let r := fetchRemotesLoop w rest
      (m :: r.1, r.2)

/-- gitDownloader.fetchRemotes restricted to one remote. -/
def fetchRemotes (w : FetchWorld) : List AuthMode × Option GoErr :=
  fetchRemotesLoop w authModes

/-! ## Composition model
Embeds the data model of pkg/model/model.go: Strategy, Source, Package.
Names are Lean String values; paths and other character-level data are
lists of characters. -/

/-- model.Strategy: a merge strategy name with its path list. -/
structure Strategy where
  name : List Char
  paths : List (List Char)
deriving DecidableEq, Repr

/-- model.Source: package source definition. -/
structure Source where
  type : List Char
  url : List Char
  ref : List Char
  strategies : List Strategy
deriving DecidableEq, Repr

/-- model.Package: a resolved dependency with its recorded children. -/
structure Package where
  name : String
  source : Source
  dependencies : List String
deriving DecidableEq, Repr

/-- model.TargetLatest. -/
def TargetLatest : List Char := "latest".data

/-- Package.GetStrategies. -/
def Package.GetStrategies (p : Package) : List Strategy := p.source.strategies

/-- Package.GetRef. -/
def Package.GetRef (p : Package) : List Char := p.source.ref

/-- Package.GetTarget: the ref, or the literal latest when the ref is
empty. -/
def Package.GetTarget (p : Package) : List Char :=
  if p.GetRef = [] then TargetLatest else p.GetRef

/-! ## Dependency graph and topological sort
Embeds compose/builder.go buildDependenciesGraph together with the
stevenle/topsort library it drives. A topsort graph is a Go map from
node names to edge sets; both the edge sets and the package-name map
iterate in unspecified order. The node and edge lists below keep
insertion order, and the order in which a node's edge set is iterated
during the sort is an explicit schedule parameter. -/

/-- The synthetic root node name, compose.DependencyRoot. -/
def DependencyRoot : String := "root"

/-- The topsort graph: insertion-ordered nodes, each with its
insertion-ordered edge set. -/
structure Graph where
  nodes : List (String × List String)
deriving Repr

/-- topsort Graph.AddNode: add an empty node if absent. -/
def Graph.addNode (g : Graph) (n : String) : Graph :=
  if (assocGet g.nodes n).isSome then g else ⟨g.nodes ++ [(n, [])]⟩

/-- Edge insertion into the adjacency entry of a node (set semantics of
the Go edge map, keeping first-insertion order). -/
def insertEdgeList : List (String × List String) → String → String → List (String × List String)
  | [], _, _ => []
  | (k, es) :: rest, a, b =>
    if k = a then (k, if b ∈ es then es else es ++ [b]) :: rest
    else (k, es) :: insertEdgeList rest a b

/-- topsort Graph.AddEdge: ensure both nodes exist, then record the
edge in the source node's edge set. -/
def Graph.addEdge (g : Graph) (a b : String) : Graph :=
  let g1 := g.addNode a
  let g2 := g1.addNode b
  ⟨insertEdgeList g2.nodes a b⟩

/-- The edge set of a node; a missing node has no edges (Go nil map). -/
def Graph.edgesOf (g : Graph) (n : String) : List String :=
  (assocGet g.nodes n).getD []

/-- Membership flips of the packageNames map of buildDependenciesGraph:
a dependency target is marked false. -/
def setFalse : List (String × Bool) → String → List (String × Bool)
  | [], d => [(d, false)]
  | (k, v) :: rest, d => if k = d then (k, false) :: rest else (k, v) :: setFalse rest d

/-- packageNames entry creation: mark a package true when first seen as
a package (only if not already present). -/
def addPkgName (l : List (String × Bool)) (n : String) : List (String × Bool) :=
  if (assocGet l n).isSome then l else l ++ [(n, true)]

/-- One iteration of the package loop of buildDependenciesGraph. -/
def buildGraphStep (acc : Graph × List (String × Bool)) (p : Package) : Graph × List (String × Bool) :=
  let names := addPkgName acc.2 p.name
  let g := acc.1.addNode p.name
  p.dependencies.foldl
    (fun (st : Graph × List (String × Bool)) d => (st.1.addEdge p.name d, setFalse st.2 d))
    (g, names)

/-- The final loop of buildDependenciesGraph: an edge from the
synthetic root to every package never seen as a dependency target. -/
def addRootEdges (g : Graph) (names : List (String × Bool)) : Graph :=
  names.foldl (fun g p => if p.2 then g.addEdge DependencyRoot p.1 else g) g

/-- compose/builder.go buildDependenciesGraph. -/
def buildDependenciesGraph (packages : List Package) : Graph :=
  let st := packages.foldl buildGraphStep (⟨[]⟩, [])
  addRootEdges st.1 st.2

/-- Edge-iteration schedule: the order in which the Go map holding a
node's edge set is iterated during the sort. -/
def Schedule := String → List String → List String

/-- A schedule is admissible when it merely reorders the edge set. -/
def Schedule.Admissible (σ : Schedule) : Prop :=
  ∀ n l, List.Perm (σ n l) l

/-- The in-recorded-order schedule, one admissible iteration order. -/
def idSchedule : Schedule := fun _ l => l

/-- The inner edge loop of topsort Graph.visit: skip edges already in
the results, fail on an edge already on the current path (cycle),
otherwise recurse through the supplied visitor. -/
def visitEdges (next : String → List String → List String → Option (List String))
    (visited : List String) : List String → List String → Option (List String)
  | [], res => some res
  | e :: es, res =>
    if e ∈ res then visitEdges next visited es res
    else if e ∈ visited then none
    else
      match next e res visited with
      | none => none
      | some r => visitEdges next visited es r

/-- topsort Graph.visit with explicit fuel (the Go recursion terminates
because the visited path grows inside a finite node set; the fuel used
below always dominates that depth): visit the node's edges in schedule
order, then append the node to the results if absent. -/
def visit (g : Graph) (σ : Schedule) : Nat → String → List String → List String → Option (List String)
  | 0, _, _, _ => none
  | n+1, name, results, visited =>
    match visitEdges (fun e res vis => visit g σ n e res vis) (visited ++ [name])
        (σ name (g.edgesOf name)) results with
    | none => none
    | some r => some (if name ∈ r then r else r ++ [name])

/-- Fuel that dominates the DFS depth: every node on the visited path
is a distinct key of the node map (edge targets are always added as
nodes), so the depth never exceeds the node count plus one. -/
def topSortFuel (g : Graph) : Nat := g.nodes.length + 1

/-- topsort Graph.TopSort. -/
def Graph.topSort (g : Graph) (σ : Schedule) (node : String) : Option (List String) :=
  visit g σ (topSortFuel g) node [] []

/-- The order in which Builder.build merges packages: the topological
sort output with the synthetic root skipped by the build loop. -/
def mergeOrder (packages : List Package) (σ : Schedule) : Option (List String) :=
  (Graph.topSort (buildDependenciesGraph packages) σ DependencyRoot).map
    (List.filter (fun s => decide (s ≠ DependencyRoot)))

/-- x is processed strictly before y in a merge list. -/
def mergedBefore (l : List String) (x y : String) : Prop :=
  x ∈ l ∧ y ∈ l ∧ l.indexOf x < l.indexOf y

/-- The ordering invariant of a topsort result list: every edge target
of an element occurs strictly earlier in the list. -/
def goodList (g : Graph) (l : List String) : Prop :=
  ∀ (i : Nat) (h : i < l.length), ∀ v ∈ g.edgesOf (l.get ⟨i, h⟩), v ∈ l.take i

/-- Specification of a visitor used by the edge loop, bundling the
invariants preserved by topsort Graph.visit: the results list only
grows, the visited node ends up in it, the ordering invariant, absence
of duplicates and closure under any edge-closed predicate are
preserved. -/
def VisitSpec (g : Graph) (f : String → List String → List String → Option (List String)) : Prop :=
  ∀ e res vis r, f e res vis = some r →
    List.IsPrefix res r ∧ e ∈ r ∧
    (goodList g res → goodList g r) ∧
    (res.Nodup → r.Nodup) ∧
    (∀ S : String → Prop, (∀ u, S u → ∀ v ∈ g.edgesOf u, S v) → S e →
      (∀ x ∈ res, S x) → ∀ x ∈ r, S x)

/-- Reachability along recorded edges, used to characterize the node
set a topological sort emits. -/
inductive Reach (g : Graph) : String → String → Prop
  | refl (x : String) : Reach g x x
  | step {x y z : String} : Reach g x y → z ∈ g.edgesOf y → Reach g x z

/-! ## Merge strategies and the entry map (compose/builder.go) -/

/-- Replacement in an association list (Go map assignment). -/
def assocSet {α : Type} [DecidableEq α] {β : Type} : List (α × β) → α → β → List (α × β)
  | [], k, v => [(k, v)]
  | (k0, v0) :: rest, k, v =>
    if k0 = k then (k0, v) :: rest else (k0, v0) :: assocSet rest k v

/-- builder.go mergeStrategyType constants. -/
inductive MergeStrategyType
  | undefinedStrategy
  | overwriteLocalFile
  | removeExtraLocalFiles
  | ignoreExtraPackageFiles
  | filterPackageFiles
deriving DecidableEq, Repr

/-- builder.go mergeStrategyTarget constants. -/
inductive MergeStrategyTarget
  | localStrategy
  | packageStrategy
deriving DecidableEq, Repr

/-- builder.go mergeConflictResolve constants. -/
inductive MergeConflictResolve
  | noConflict
  | resolveToLocal
  | resolveToPackage
deriving DecidableEq, Repr

/-- builder.go mergeStrategy. -/
structure MergeStrategy where
  s : MergeStrategyType
  t : MergeStrategyTarget
  paths : List (List Char)
deriving DecidableEq, Repr

/-- The strategy name constants. -/
def StrategyOverwriteLocal : List Char := "overwrite-local-file".data

/-- remove-extra-local-files. -/
def StrategyRemoveExtraLocal : List Char := "remove-extra-local-files".data

/-- ignore-extra-package-files. -/
def StrategyIgnoreExtraPackage : List Char := "ignore-extra-package-files".data

/-- filter-package-files. -/
def StrategyFilterPackage : List Char := "filter-package-files".data

/-- builder.go identifyStrategy. -/
def identifyStrategy (name : List Char) : MergeStrategyType × MergeStrategyTarget :=
  if name = StrategyOverwriteLocal then (.overwriteLocalFile, .packageStrategy)
  else if name = StrategyRemoveExtraLocal then (.removeExtraLocalFiles, .localStrategy)
  else if name = StrategyIgnoreExtraPackage then (.ignoreExtraPackageFiles, .packageStrategy)
  else if name = StrategyFilterPackage then (.filterPackageFiles, .packageStrategy)
  else (.undefinedStrategy, .packageStrategy)

/-- Strip trailing separators from a path. -/
def dropTrailingSeps (p : List Char) : List Char :=
  (p.reverse.dropWhile (fun c => c = '/')).reverse

/-- builder.go cleanStrategyPaths: on the normalized relative strategy
paths used here filepath.Clean only removes trailing separators, and
the function then appends exactly one separator so the prefix match is
not greedy. -/
def cleanStrategyPaths (paths : List (List Char)) : List (List Char) :=
  paths.map (fun p => dropTrailingSeps p ++ ['/'])

/-- builder.go retrieveStrategies: split every package's declared
strategies into the global local-target list and a per-package map of
package-target strategies (every package name gets an entry, possibly
empty). -/
def retrieveStrategies (packages : List Package) :
    List MergeStrategy × List (String × List MergeStrategy) :=
  packages.foldl (fun acc pkg =>
    let res := pkg.GetStrategies.foldl
      (fun (st : List MergeStrategy × List MergeStrategy) item =>
        let it := identifyStrategy item.name
        if it.1 = .undefinedStrategy then st
        else
          let strategy : MergeStrategy := ⟨it.1, it.2, cleanStrategyPaths item.paths⟩
          if it.2 = .localStrategy then (st.1 ++ [strategy], st.2)
          else (st.1, st.2 ++ [strategy]))
      (acc.1, [])
    (res.1, assocSet acc.2 pkg.name res.2)) ([], [])

/-- Go strings.Index: position of the first occurrence of a pattern. -/
def findSub (pat : List Char) : List Char → Option Nat
  | [] => if pat.isPrefixOf ([] : List Char) then some 0 else none
  | c :: t => if pat.isPrefixOf (c :: t) then some 0 else (findSub pat t).map (· + 1)

/-- Go strings.Contains. -/
def containsSub (s pat : List Char) : Bool := (findSub pat s).isSome

/-- builder.go ensureStrategyPrefixPath: some strategy path is a
prefix of the entry path. -/
def ensureStrategyPrefixPath (path : List Char) (strategyPaths : List (List Char)) : Bool :=
  strategyPaths.any (fun sp => sp.isPrefixOf path)

/-- builder.go ensureStrategyContainsPath: some strategy path contains
the entry path as a substring. -/
def ensureStrategyContainsPath (path : List Char) (strategyPaths : List (List Char)) : Bool :=
  strategyPaths.any (fun sp => containsSub sp path)

/-- builder.go fsEntry (the Entry FileInfo is reduced to the directory
bit the builder consults; the never-set Excluded flag is omitted). -/
structure FsEntry where
  pfx : List Char
  srcPath : List Char
  dstPath : List Char
  isDir : Bool
  origin : List Char
deriving DecidableEq, Repr

/-- The entriesTree plus entriesMap pair of Builder.build: the tree
keeps insertion order and the map is keyed by destination path; since
every tree element is registered in the map under its destination path
and updated in place, one insertion-ordered association list models
both. -/
abbrev Entries := List (List Char × FsEntry)

/-- builder.go addEntries: first writer wins, an occupied destination
silently discards the incoming entry. -/
def addEntries (entries : Entries) (entry : FsEntry) (path : List Char) :
    Entries × MergeConflictResolve :=
  match assocGet entries path with
  | none => (entries ++ [(path, entry)], .noConflict)
  | some _ => (entries, .resolveToLocal)

/-- In-place update of the map entry at a key (the Go code mutates the
fields of the shared fsEntry pointer, keeping its tree position). -/
def overwriteAt : Entries → List Char → FsEntry → Entries
  | [], _, _ => []
  | (k, v) :: rest, path, e =>
    if k = path then (k, e) :: rest else (k, v) :: overwriteAt rest path e

/-- builder.go addStrategyEntries: evaluate the package strategies in
declaration order; overwrite-local-file and ignore-extra-package-files
move to the next strategy when the path does not match, every other
reached case returns; an exhausted list falls through to addEntries. -/
def addStrategyEntries :
    List MergeStrategy → Entries → FsEntry → List Char → Entries × MergeConflictResolve
  | [], entries, entry, path => addEntries entries entry path
  | ms :: rest, entries, entry, path =>
    match ms.s with
    | .overwriteLocalFile =>
      if !ensureStrategyPrefixPath path ms.paths then
        addStrategyEntries rest entries entry path
      else
        match assocGet entries path with
        | none => (entries ++ [(path, entry)], .noConflict)
        | some _ =>
          if ensureStrategyPrefixPath path ms.paths then
            (overwriteAt entries path entry, .resolveToPackage)
          else (entries, .noConflict)
    | .filterPackageFiles =>
      if (assocGet entries path).isNone
          && (ensureStrategyPrefixPath path ms.paths
              || (entry.isDir && ensureStrategyContainsPath path ms.paths)) then
        (entries ++ [(path, entry)], .noConflict)
      else (entries, .noConflict)
    | .ignoreExtraPackageFiles =>
      if !ensureStrategyPrefixPath path ms.paths then
        addStrategyEntries rest entries entry path
      else (entries, .noConflict)
    | _ => (entries, .noConflict)

/-! ## Destination path normalization (compose/builder.go) -/

/-- builder.go layerNames. -/
def layerNames : List (List Char) :=
  ["platform".data, "interaction".data, "integration".data, "cognition".data,
   "conversation".data, "stabilization".data, "foundation".data]

/-- The separator-delimited roles segment. -/
def rolesSegment : List Char := "/roles/".data

/-- A leading roles segment. -/
def rolesPre : List Char := "roles/".data

/-- The separator-delimited group variables segment. -/
def groupVarsSegment : List Char := "/group_vars/".data

/-- Its replacement. -/
def variablesSegment : List Char := "/variables/".data

/-- A leading group variables segment. -/
def groupVarsPre : List Char := "group_vars/".data

/-- Its replacement. -/
def variablesPre : List Char := "variables/".data

/-- builder.go stripRolesFromPath: remove the first interior roles
segment, or a leading one. -/
def stripRolesFromPath (path : List Char) : List Char :=
  match findSub rolesSegment path with
  | some idx => path.take idx ++ ['/'] ++ path.drop (idx + rolesSegment.length)
  | none =>
    if rolesPre.isPrefixOf path then path.drop rolesPre.length else path

/-- builder.go normalizeGroupVarsToVariables: rename the first
interior group variables segment, or a leading one. -/
def normalizeGroupVarsToVariables (path : List Char) : List Char :=
  match findSub groupVarsSegment path with
  | some idx => path.take idx ++ variablesSegment ++ path.drop (idx + groupVarsSegment.length)
  | none =>
    if groupVarsPre.isPrefixOf path then variablesPre ++ path.drop groupVarsPre.length
    else path

/-- builder.go isLayerDirectory. fs.WalkDir emits canonical relative
paths, on which filepath.Clean is the identity, so the first segment is
the run of characters before the first separator. -/
def isLayerDirectory (path : List Char) : Bool :=
  layerNames.contains (path.takeWhile (fun c => c ≠ '/'))

/-- Minimal filesystem view backing hasModernLayout: whether a path
inside the package directory exists, and whether it is a directory. -/
structure PkgStat where
  statExists : List Char → Bool
  statIsDir : List Char → Bool

/-- builder.go hasModernLayout: the package root has a src directory
containing at least one recognized layer name (the Go loop over the
layer map tests bare existence, an order-independent condition). -/
def hasModernLayout (st : PkgStat) : Bool :=
  st.statExists "src".data && st.statIsDir "src".data &&
    layerNames.any (fun layer => st.statExists ("src/".data ++ layer))

/-- builder.go adjustDestinationPath: strip roles, rename group
variables, and for a legacy-layout package move a layer path under the
src directory (filepath.Join of src with a canonical relative path is
that path behind a src separator prefix). -/
def adjustDestinationPath (path : List Char) (isModernLayout : Bool) : List Char :=
  let p1 := stripRolesFromPath path
  let p2 := normalizeGroupVarsToVariables p1
  if isModernLayout then p2
  else if isLayerDirectory p2 then "src/".data ++ p2
  else p2

/-! ## The build walk (Builder.build) -/

/-- One walked filesystem entry: its path relative to the walk root
and whether it is a directory. -/
structure WalkEntry where
  path : List Char
  isDir : Bool
deriving DecidableEq, Repr

/-- builder.go gitPrefix. -/
def gitPre : List Char := ".git".data

/-- builder.go excludedFolders. -/
def excludedFolders : List (List Char) := [".plasma".data]

/-- builder.go excludedFiles (composeFile is model.ComposeFile). -/
def excludedFiles : List (List Char) := ["compose.yaml".data]

/-- Modelled from the spec: rgxPathRoot, whose regular expression is
not among the sources, extracts the root of a walked relative path
(the reserved internal-state folder exclusion applies to the path's
first segment). -/
def pathRoot (p : List Char) : List Char := p.takeWhile (fun c => c ≠ '/')

/-- filepath.Base for canonical relative paths: the characters after
the last separator. -/
def pathBase (p : List Char) : List Char :=
  (p.reverse.takeWhile (fun c => c ≠ '/')).reverse

/-- filepath.Dir for canonical relative paths: the characters before
the last separator, or the dot path when there is none. -/
def pathDir (p : List Char) : List Char :=
  let r := p.reverse.dropWhile (fun c => c ≠ '/')
  if r = [] then ".".data else (r.drop 1).reverse

/-- Set-style insertion preserving first-insertion order. -/
def insertOnce (l : List (List Char)) (x : List Char) : List (List Char) :=
  if l.contains x then l else l ++ [x]

/-- builder.go getVersionedMap, success path: every file of the HEAD
commit tree and its immediate parent directory are marked versioned. -/
def versionedList (files : List (List Char)) : List (List Char) :=
  files.foldl (fun acc f => insertOnce (insertOnce acc (pathDir f)) f) []

/-- Builder.build lines computing the skip-unversioned configuration:
when the flag is requested but the repository cannot be opened or its
HEAD read, the check is silently disabled and the map left empty. -/
def versionedConfig (skipNotVersioned : Bool) (gitOpen : Except Unit (List (List Char))) :
    Bool × List (List Char) :=
  if skipNotVersioned then
    match gitOpen with
    | .error _ => (false, [])
    | .ok files => (true, versionedList files)
  else (false, [])

/-- The filter of the baseline walk callback of Builder.build, in
source order: reserved folders, the manifest file name for files, the
remove-extra-local-files strategies, then the versioned check bypassed
for any path with the version-control prefix. -/
def baselineIncluded (ls : List MergeStrategy) (checkVersioned : Bool)
    (versioned : List (List Char)) (w : WalkEntry) : Bool :=
  if excludedFolders.contains (pathRoot w.path) then false
  else if !w.isDir && excludedFiles.contains (pathBase w.path) then false
  else if ls.any (fun s =>
      decide (s.s = MergeStrategyType.removeExtraLocalFiles)
        && ensureStrategyPrefixPath w.path s.paths) then false
  else if checkVersioned && !(gitPre.isPrefixOf w.path)
      && !(versioned.contains w.path) then false
  else true

/-- The baseline entry built for a surviving walked path: source and
destination coincide and the origin label is the domain repository. -/
def mkBaselineEntry (platformDir : List Char) (w : WalkEntry) : FsEntry :=
  { pfx := platformDir, srcPath := w.path, dstPath := w.path
    isDir := w.isDir, origin := "domain repo".data }

/-- One baseline walk callback invocation. -/
def baselineWalkStep (ls : List MergeStrategy) (checkVersioned : Bool)
    (versioned : List (List Char)) (platformDir : List Char)
    (acc : Entries) (w : WalkEntry) : Entries :=
  if baselineIncluded ls checkVersioned versioned w then
    acc ++ [(w.path, mkBaselineEntry platformDir w)]
  else acc

/-- The whole baseline pass of Builder.build. -/
def baselinePass (ls : List MergeStrategy) (checkVersioned : Bool)
    (versioned : List (List Char)) (platformDir : List Char)
    (walk : List WalkEntry) : Entries :=
  walk.foldl (baselineWalkStep ls checkVersioned versioned platformDir) []

/-- One package walk callback invocation of Builder.build: skip the
version-control folder, adjust the destination, then merge with the
package's strategies; a package absent from the strategy map uses the
default merge. -/
def buildWalkStep (strategies : Option (List MergeStrategy)) (pkgPath : List Char)
    (pkgName : String) (modern : Bool) (entries : Entries) (w : WalkEntry) : Entries :=
  if gitPre.isPrefixOf w.path then entries
  else
    let adjustedPath := adjustDestinationPath w.path modern
    let entry : FsEntry :=
      { pfx := pkgPath, srcPath := w.path, dstPath := adjustedPath
        isDir := w.isDir, origin := pkgName.data }
    match strategies with
    | none => (addEntries entries entry adjustedPath).1
    | some ss => (addStrategyEntries ss entries entry adjustedPath).1

/-- The walk of one package tree. -/
def processPackage (strategies : Option (List MergeStrategy)) (pkgPath : List Char)
    (pkgName : String) (modern : Bool) (entries : Entries) (walk : List WalkEntry) : Entries :=
  walk.foldl (buildWalkStep strategies pkgPath pkgName modern) entries

/-- builder.go getTargetsMap. -/
def getTargetsMap (packages : List Package) : List (String × List Char) :=
  packages.foldl (fun acc p => assocSet acc p.name p.GetTarget) []

/-- Fetched tree of one package as the walk sees it, plus the
hasModernLayout answer for its directory. -/
structure PkgFS where
  walk : List WalkEntry
  modern : Bool

/-- The inputs of one Builder.build run: resolved packages, the
fetched package trees, the baseline walk, the skip-unversioned flag
with its git oracle, the directories, and the file bytes reachable at
a prefix and source path. -/
structure BuildInput where
  packages : List Package
  pkgFS : String → PkgFS
  baselineWalk : List WalkEntry
  skipNotVersioned : Bool
  gitOpen : Except Unit (List (List Char))
  platformDir : List Char
  sourceDir : List Char
  content : List Char → List Char → List Char

/-- filepath.Join of the packages directory, package name and target
(canonical components). -/
def pkgPathOf (inp : BuildInput) (targets : List (String × List Char)) (pkgName : String) :
    List Char :=
  inp.sourceDir ++ ('/' :: pkgName.data) ++ ('/' :: (assocGet targets pkgName).getD [])

/-- The package loop of Builder.build over the topological order,
skipping the synthetic root. -/
def buildMergeLoop (inp : BuildInput) (ps : List (String × List MergeStrategy))
    (targets : List (String × List Char)) (entries : Entries) (items : List String) : Entries :=
  items.foldl (fun entries pkgName =>
    if pkgName = DependencyRoot then entries
    else
      let fsd := inp.pkgFS pkgName
      processPackage (assocGet ps pkgName) (pkgPathOf inp targets pkgName)
        pkgName fsd.modern entries fsd.walk) entries

/-- Builder.build, phase 1: the in-memory entry collection. The
topological sort error is discarded in the source, leaving an empty
item list. -/
def build (inp : BuildInput) (σ : Schedule) : Entries :=
  let vc := versionedConfig inp.skipNotVersioned inp.gitOpen
  let rs := retrieveStrategies inp.packages
  let base := baselinePass rs.1 vc.1 vc.2 inp.platformDir inp.baselineWalk
  let graph := buildDependenciesGraph inp.packages
  let items := (graph.topSort σ DependencyRoot).getD []
  buildMergeLoop inp rs.2 (getTargetsMap inp.packages) base items

/-- Builder.build, phase 2 (materialization), observed as the map from
destination path to the bytes copied there: the winning entry's source
bytes. -/
def output (content : List Char → List Char → List Char) (entries : Entries)
    (p : List Char) : Option (List Char) :=
  (assocGet entries p).map (fun e => content e.pfx e.srcPath)

/-- The materialized output of one full build run. -/
def buildOutput (inp : BuildInput) (σ : Schedule) (p : List Char) : Option (List Char) :=
  output inp.content (build inp σ) p

/-- The claim's notion of a strategy matching an entry: prefix match
for files, prefix or containment for directories. -/
def strategyMatches (ms : MergeStrategy) (e : FsEntry) (path : List Char) : Bool :=
  ensureStrategyPrefixPath path ms.paths
    || (e.isDir && ensureStrategyContainsPath path ms.paths)

/-- A filter-package-files strategy scoped to the cfg directory. -/
def filterStrategyCfg : MergeStrategy :=
  ⟨.filterPackageFiles, .packageStrategy, ["cfg/".data]⟩

/-- An overwrite-local-file strategy scoped to the cfg directory. -/
def overwriteStrategyCfg : MergeStrategy :=
  ⟨.overwriteLocalFile, .packageStrategy, ["cfg/".data]⟩

/-- A package file entry outside the cfg directory. -/
def fileEntryOther : FsEntry :=
  { pfx := "P".data, srcPath := "other/file.txt".data, dstPath := "other/file.txt".data
    isDir := false, origin := "pkgA".data }

/-- Destination paths a package walk produces: its non-git entries
after destination adjustment. -/
def producedPaths (modern : Bool) (walk : List WalkEntry) : List (List Char) :=
  (walk.filter (fun w => !(gitPre.isPrefixOf w.path))).map
    (fun w => adjustDestinationPath w.path modern)

/-- The first walk entry of a package that lands on a destination. -/
def firstEntryAt (modern : Bool) (walk : List WalkEntry) (p : List Char) : Option WalkEntry :=
  walk.find? (fun w =>
    !(gitPre.isPrefixOf w.path) && adjustDestinationPath w.path modern == p)

/-- One strategy-less package as the merge loop processes it. -/
structure PkgRun where
  pkgPath : List Char
  pkgName : String
  modern : Bool
  walk : List WalkEntry

/-- Sequential default-merge processing of strategy-less packages. -/
def processDefaultRuns (entries : Entries) (runs : List PkgRun) : Entries :=
  runs.foldl (fun st r => processPackage none r.pkgPath r.pkgName r.modern st r.walk) entries

/-! ## Spec-side path normalization over segments (claim C5)
The claim describes the destination adjustment as operations on path
segments; these definitions follow the claim's words, to be compared
with adjustDestinationPath above. -/

/-- Path segments. -/
abbrev Segs := List (List Char)

/-- Valid walked-path shape: at least one segment, each nonempty and
free of separators (the canonical relative paths fs.WalkDir emits). -/
def ValidSegs (segs : Segs) : Prop :=
  segs ≠ [] ∧ ∀ s ∈ segs, s ≠ [] ∧ ∀ c ∈ s, c ≠ '/'

/-- Join segments with the separator. -/
def joinSegs : Segs → List Char
  | [] => []
  | [a] => a
  | a :: b :: rest => a ++ '/' :: joinSegs (b :: rest)

/-- Replace the first occurrence of the word as a segment that is
neither first nor last by the replacement segments. -/
def replInteriorSeg (word : List Char) (reps : Segs) : Segs → Option Segs
  | a :: b :: c :: rest =>
    if b = word then some (a :: (reps ++ (c :: rest)))
    else (replInteriorSeg word reps (b :: c :: rest)).map (a :: ·)
  | _ => none

/-- Spec-side roles stripping: remove the first interior roles
segment, else a leading one followed by at least one more segment. -/
def specStripRoles (segs : Segs) : Segs :=
  match replInteriorSeg ("roles".data) [] segs with
  | some r => r
  | none =>
    match segs with
    | a :: b :: rest => if a = "roles".data then b :: rest else segs
    | _ => segs

/-- Spec-side group-variables renaming, same positions. -/
def specNormalizeGroupVars (segs : Segs) : Segs :=
  match replInteriorSeg ("group_vars".data) ["variables".data] segs with
  | some r => r
  | none =>
    match segs with
    | a :: b :: rest =>
      if a = "group_vars".data then ("variables".data) :: b :: rest else segs
    | _ => segs

/-- The segment-level destination adjustment the amended claim
describes. -/
def specAdjust (segs : Segs) (isModernLayout : Bool) : Segs :=
  let s1 := specStripRoles segs
  let s2 := specNormalizeGroupVars s1
  if isModernLayout then s2
  else if layerNames.contains (s2.headD []) then "src".data :: s2
  else s2

/-- Removal of the first occurrence of a word at any position, as the
unamended claim reads. -/
def claimRemFirst (word : List Char) : Segs → Segs
  | [] => []
  | a :: rest => if a = word then rest else a :: claimRemFirst word rest

/-- Renaming of the first occurrence of a word at any position. -/
def claimRenFirst (word repl : List Char) : Segs → Segs
  | [] => []
  | a :: rest => if a = word then repl :: rest else a :: claimRenFirst word repl rest

/-- The transformation claim C5 literally describes: steps (a) and (b)
on a first occurrence in any position, then the legacy layer
prefixing. -/
def claimAdjust (segs : Segs) (isModernLayout : Bool) : Segs :=
  let s1 := claimRemFirst ("roles".data) segs
  let s2 := claimRenFirst ("group_vars".data) ("variables".data) s1
  if isModernLayout then s2
  else if layerNames.contains (s2.headD []) then "src".data :: s2
  else s2

/-! ## EnsureLatest for git packages (claim C6)
Embeds gitDownloader.EnsureLatest and gitDownloader.ensureLatestTag;
the git repository and filesystem are oracle records. -/

/-- Fatal errors EnsureLatest can surface. -/
inductive GitOpErr
  | fsErr
  | headFatal
deriving DecidableEq, Repr

/-- Errors inside ensureLatestTag (all downgraded by the caller). -/
inductive TagErr
  | tagErr
  | headErr
  | fetchErr
  | resolveErr
deriving DecidableEq, Repr

/-- Oracle for the tag checks of ensureLatestTag: the tag hash before
and after the fetch, the current HEAD commit hash, the fetch outcome,
and the commit the tag resolves to. -/
structure TagRepo where
  tagBefore : Option String
  headHash : Option String
  fetchOk : Bool
  tagAfter : Option String
  tagCommit : Option String
deriving Repr

/-- gitDownloader.ensureLatestTag: read the tag, read HEAD, fetch only
the tag refspec, compare the tag hash before and after, then compare
the tag's commit with HEAD. -/
def ensureLatestTag (r : TagRepo) : Except TagErr Bool :=
  match r.tagBefore with
  | none => .error .tagErr
  | some oldHash =>
    match r.headHash with
    | none => .error .headErr
    | some head =>
      if !r.fetchOk then .error .fetchErr
      else
        match r.tagAfter with
        | none => .error .tagErr
        | some newHash =>
          if oldHash ≠ newHash then .ok false
          else
            match r.tagCommit with
            | none => .error .resolveErr
            | some cid => .ok (cid == head)

/-- Oracle for one EnsureLatest call: the download directory state,
the repository open result, the checked-out branch name, the branch
check result (for the branch path, already downgraded), and the tag
oracle. -/
structure PkgDir where
  dirExists : Bool
  emptyCheck : Except Unit Bool
  openOk : Bool
  headName : Option String
  branchLatest : Bool
  repo : TagRepo
deriving Repr

/-- gitDownloader.EnsureLatest: a missing or empty directory and an
unopenable repository are not latest; an unreadable HEAD is fatal; a
ref equal to the checked-out branch (after the latest-target
substitution) takes the branch path, any other ref the tag path; any
tag-check error is downgraded to not latest. -/
def EnsureLatest (p : PkgDir) (ref : String) : Except GitOpErr Bool :=
  if !p.dirExists then .ok false
  else
    match p.emptyCheck with
    | .error _ => .error .fsErr
    | .ok true => .ok false
    | .ok false =>
      if !p.openOk then .ok false
      else
        match p.headName with
        | none => .error .headFatal
        | some headName =>
          let target := if ref = "" then "latest" else ref
          let pkgRefName := if target = "latest" ∧ headName ≠ "" then headName else ref
          if headName = pkgRefName then .ok p.branchLatest
          else
            match ensureLatestTag p.repo with
            | .error _ => .ok false
            | .ok b => .ok b

/-- A healthy tag-path repository world: tag unchanged by the fetch
and pointing at the current HEAD commit. -/
def tagRepoLatest : TagRepo :=
  { tagBefore := some "t1", headHash := some "c1", fetchOk := true
    tagAfter := some "t1", tagCommit := some "c1" }

/-- A concrete package directory on the tag path (checked-out branch
main, requested ref v1.0.0). -/
def pkgDirTag : PkgDir :=
  { dirExists := true, emptyCheck := .ok false, openOk := true
    headName := some "main", branchLatest := false, repo := tagRepoLatest }

/-! ## Manifest lookup and recursive download (claim C7)
Embeds model.Lookup and DownloadManager.recursiveDownload; the
manifest contents found on disk are an oracle, the transport succeeds
(download failures are outside this claim). -/

/-- model.Dependency. -/
structure Dependency where
  name : String
  source : Source
deriving DecidableEq, Repr

/-- model.Composition (the parsed manifest). -/
structure Composition where
  name : String
  dependencies : List Dependency
deriving DecidableEq, Repr

/-- Dependency.ToPackage. -/
def Dependency.ToPackage (d : Dependency) (name : String) : Package :=
  { name := name, source := d.source, dependencies := [] }

/-- The state of one manifest file on disk. -/
inductive ManifestFile
  | absent
  | malformed
  | wellFormed (c : Composition)
deriving DecidableEq, Repr

/-- The two failures model.Lookup distinguishes. -/
inductive LookupErr
  | errComposeNotExists
  | parseErr
deriving DecidableEq, Repr

/-- model.Lookup: a missing file is the distinguished not-exists
condition, unparsable yaml the distinguished parse error. -/
def Lookup : ManifestFile → Except LookupErr Composition
  | .absent => .error .errComposeNotExists
  | .malformed => .error .parseErr
  | .wellFormed c => .ok c

/-- Errors the resolver can return (parse errors of nested manifests
are not among them: the source checks the Lookup error against nil and
silently skips the nested manifest otherwise). -/
inductive DownloadErr
  | noURL
  | fuel
deriving DecidableEq, Repr

/-- The dependency loop of DownloadManager.recursiveDownload: per
dependency, an empty source url aborts; the package is downloaded;
when its directory holds a manifest that parses, the resolver recurses
through the supplied continuation before appending the package
(post-order); an absent or unparsable nested manifest is skipped. -/
def recursiveDownloadLoop
    (next : List Dependency → List Package → Except DownloadErr (List Package))
    (world : String → ManifestFile) :
    List Dependency → List Package → Except DownloadErr (List Package)
  | [], packages => .ok packages
  | d :: rest, packages =>
    if d.source.url = [] then .error .noURL
    else
      match world d.name with
      | .absent => recursiveDownloadLoop next world rest (packages ++ [d.ToPackage d.name])
      | .malformed => recursiveDownloadLoop next world rest (packages ++ [d.ToPackage d.name])
      | .wellFormed cfg =>
        match next cfg.dependencies packages with
        | .error e => .error e
        | .ok packages2 =>
          recursiveDownloadLoop next world rest (packages2 ++ [d.ToPackage d.name])

/-- DownloadManager.recursiveDownload with fuel dominating the nesting
depth (the Go recursion is bounded by the manifest tree depth). -/
def recursiveDownload (world : String → ManifestFile) :
    Nat → List Dependency → List Package → Except DownloadErr (List Package)
  | 0, _, _ => .error .fuel
  | n+1, deps, packages =>
    recursiveDownloadLoop (fun ds ps => recursiveDownload world n ds ps) world deps packages

/-- CreateComposer followed by DownloadManager.Download: the root
manifest is looked up first and any of its errors is fatal; then the
dependency tree is resolved. -/
def runResolve (rootManifest : ManifestFile) (world : String → ManifestFile)
    (fuel : Nat) : Except (Sum LookupErr DownloadErr) (List Package) :=
  match Lookup rootManifest with
  | .error e => .error (.inl e)
  | .ok cfg =>
    match recursiveDownload world fuel cfg.dependencies [] with
    | .error e => .error (.inr e)
    | .ok ps => .ok ps

/-- A dependency named a with a nonempty url and no strategies. -/
def depA : Dependency :=
  { name := "a", source := { type := [], url := "u".data, ref := [], strategies := [] } }

/-- A world where package a carries a malformed nested manifest. -/
def c7World : String → ManifestFile :=
  fun n => if n = "a" then .malformed else .absent

/-- A root manifest declaring the single dependency a. -/
def c7Root : Composition := { name := "root", dependencies := [depA] }

/-! ## One-key view of the merge and run determinism (claim C8) -/

/-- The entry the package walk constructs for a walked path. -/
def mkPkgEntry (pkgPath : List Char) (pkgName : String) (modern : Bool)
    (w : WalkEntry) : FsEntry :=
  { pfx := pkgPath, srcPath := w.path, dstPath := adjustDestinationPath w.path modern
    isDir := w.isDir, origin := pkgName.data }

/-- The binding the strategy evaluator leaves at the entry's
destination when that destination currently holds the given value. -/
def strategyResultAt :
    List MergeStrategy → FsEntry → List Char → Option FsEntry → Option FsEntry
  | [], e, _, v? =>
    match v? with
    | none => some e
    | some v => some v
  | ms :: rest, e, p, v? =>
    match ms.s with
    | .overwriteLocalFile =>
      if !ensureStrategyPrefixPath p ms.paths then strategyResultAt rest e p v?
      else some e
    | .filterPackageFiles =>
      if v?.isNone && (ensureStrategyPrefixPath p ms.paths
          || (e.isDir && ensureStrategyContainsPath p ms.paths)) then some e
      else v?
    | .ignoreExtraPackageFiles =>
      if !ensureStrategyPrefixPath p ms.paths then strategyResultAt rest e p v?
      else v?
    | _ => v?

/-- The same one-key view for a package with or without strategies. -/
def entryResultAt (strategies : Option (List MergeStrategy)) (e : FsEntry)
    (p : List Char) (v? : Option FsEntry) : Option FsEntry :=
  match strategies with
  | none =>
    match v? with
    | none => some e
    | some v => some v
  | some ss => strategyResultAt ss e p v?

/-- Whether a package of the run produces the destination. -/
def pkgProduces (inp : BuildInput) (n : String) (p : List Char) : Bool :=
  decide (p ∈ producedPaths (inp.pkgFS n).modern (inp.pkgFS n).walk)

/-- The binding one merged package leaves at a destination given the
binding before it. -/
def mergeStepResult (inp : BuildInput) (ps : List (String × List MergeStrategy))
    (targets : List (String × List Char)) (n : String) (p : List Char)
    (v? : Option FsEntry) : Option FsEntry :=
  match firstEntryAt (inp.pkgFS n).modern (inp.pkgFS n).walk p with
  | none => v?
  | some w =>
    entryResultAt (assocGet ps n)
      (mkPkgEntry (pkgPathOf inp targets n) n (inp.pkgFS n).modern w) p v?

/-- The canonical binding at a destination after merging the packages
of a name list in order, assuming at most one of them produces it: the
unique producer acts on the prior binding, order does not matter. -/
def canonicalFrom (inp : BuildInput) (ps : List (String × List MergeStrategy))
    (targets : List (String × List Char)) (l : List String) (p : List Char)
    (v? : Option FsEntry) : Option FsEntry :=
  match l.find? (fun n => !(n == DependencyRoot) && pkgProduces inp n p) with
  | none => v?
  | some n => mergeStepResult inp ps targets n p v?

/-- A package with the given name and recorded children and no
strategies, used for concrete runs. -/
def pkgPlain (n : String) (deps : List String) : Package :=
  { name := n
    source := { type := [], url := "u".data, ref := [], strategies := [] }
    dependencies := deps }

/-- Concrete resolution result: package b, then its parent a with the
recorded parent-to-child edge a to b (the resolver appends children
first, post-order). -/
def c2Packages : List Package := [pkgPlain "b" [], pkgPlain "a" ["b"]]

/-- The run input for the sibling-order counterexample: two parentless
strategy-less packages both producing the same destination. -/
def c8Input : BuildInput :=
  { packages := [pkgPlain "a" [], pkgPlain "b" []]
    pkgFS := fun _ => { walk := [{ path := "conf.yaml".data, isDir := false }], modern := true }
    baselineWalk := []
    skipNotVersioned := false
    gitOpen := .ok []
    platformDir := "base".data
    sourceDir := "pkgs".data
    content := fun pfx src => pfx ++ ('/' :: src) }

/-- The schedule that reverses only the synthetic root's edge list:
another admissible iteration order of the Go edge map. -/
def reverseRootSchedule : Schedule :=
  fun n l => if n = DependencyRoot then l.reverse else l

/-- The run input for the determinism witness: two parentless
strategy-less packages producing distinct destinations. -/
def c8InputDisjoint : BuildInput :=
  { packages := [pkgPlain "a" [], pkgPlain "b" []]
    pkgFS := fun n =>
      if n = "a" then { walk := [{ path := "a.yaml".data, isDir := false }], modern := true }
      else if n = "b" then { walk := [{ path := "b.yaml".data, isDir := false }], modern := true }
      else { walk := [], modern := true }
    baselineWalk := []
    skipNotVersioned := false
    gitOpen := .ok []
    platformDir := "base".data
    sourceDir := "pkgs".data
    content := fun pfx src => pfx ++ ('/' :: src) }


/-- A keyring state holding credentials both for the host and for the
exact URL, in interactive mode: the friendliest possible setting for
the fallback chain. -/
def keyringAllFound : KeyringState :=
  { lookupHost := none, lookupURL := none
    interactive := true, promptOk := true, addOk := true }

/-- Failing input for the clone chain: the anonymous attempt fails with
authentication-required, host credentials are found, and the clone with
host credentials fails with authorization-failed. -/
def authWorldHostAuthzFails : AuthWorld :=
  { keyring := keyringAllFound
    cloneAnon := some .authenticationRequired
    cloneHost := some .authorizationFailed
    cloneURL := none
    cloneManual := none }

/-- Failing input for the fetch chain, analogous. -/
def fetchWorldHostAuthzFails : FetchWorld :=
  { keyring := keyringAllFound
    fetchAnon := some .authenticationRequired
    fetchHost := some .authorizationFailed
    fetchURL := none
    fetchManual := none }

end PlasmaModel

namespace PlasmaModel

/-! ## Theorems about the authentication chain (claim C1) -/

/-- Claim C1 concerns gitDownloader.tryDownload and fetchRemotes. The
abort condition of the keyring-global step is a tautology: for every
possible clone error the step returns the error, so the chain can never
advance past step 2 once host credentials were found, and the continue
statement after the condition is dead code. -/
theorem goGlobalReturnCond_tautology :
    ∀ e : CloneErr, goGlobalReturnCond e = true := by
  intro e; cases e <;> rfl

/-- Fetch version of the tautology. -/
theorem goGlobalReturnCondFetch_tautology :
    ∀ e : FetchErr, goGlobalReturnCondFetch e = true := by
  intro e; cases e <;> rfl

/-- Claim C1: the chain is claimed to advance from step 2 to step 3
exactly on an authentication-required or authorization-failed failure.
On the concrete input where the anonymous attempt fails with
authentication-required and the attempt with host-keyed credentials
fails with authorization-failed, both tryDownload and fetchRemotes
abort at step 2 with that error and never run step 3 or step 4, even
though exact-URL credentials are available and interactive mode is on;
the underlying abort condition is a tautology in the clone error. -/
theorem c1_keyring_global_step_aborts_on_auth_failure :
    tryDownload authWorldHostAuthzFails =
      ([.authenticationModeNone, .authenticationModeKeyringGlobal],
        some (.cloneErr .authorizationFailed)) ∧
    fetchRemotes fetchWorldHostAuthzFails =
      ([.authenticationModeNone, .authenticationModeKeyringGlobal],
        some (.fetchErr .authorizationFailed)) ∧
    (∀ e : CloneErr, goGlobalReturnCond e = true) ∧
    (∀ e : FetchErr, goGlobalReturnCondFetch e = true) := by
  refine ⟨rfl, rfl, ?_, ?_⟩
  · intro e; cases e <;> rfl
  · intro e; cases e <;> rfl

/-! ## Theorems about the topological sort (claim C2) -/

theorem goodList_nil (g : Graph) : goodList g [] := by
  intro i h
  simp at h

theorem goodList_concat {g : Graph} {l : List String} {u : String}
    (hg : goodList g l) (hu : ∀ v ∈ g.edgesOf u, v ∈ l) :
    goodList g (l ++ [u]) := by
  intro i h v hv
  rcases Nat.lt_or_ge i l.length with hi | hi
  · have hget : (l ++ [u]).get ⟨i, h⟩ = l.get ⟨i, hi⟩ := by
      simp [List.get_eq_getElem, List.getElem_append_left hi]
    rw [hget] at hv
    have := hg i hi v hv
    rw [List.take_append_of_le_length (Nat.le_of_lt hi)]
    exact this
  · have hil : i = l.length := by
      have : i < l.length + 1 := by simpa using h
      omega
    subst hil
    have hget : (l ++ [u]).get ⟨l.length, h⟩ = u := by
      simp [List.get_eq_getElem]
    rw [hget] at hv
    rw [List.take_append_of_le_length (Nat.le_refl _), List.take_length]
    exact hu v hv

theorem goodList_mem_closed {g : Graph} {l : List String} (hg : goodList g l) :
    ∀ u ∈ l, ∀ v ∈ g.edgesOf u, v ∈ l := by
  intro u hu v hv
  obtain ⟨i, hi, hgi⟩ := List.mem_iff_getElem.mp hu
  have : v ∈ l.take i := by
    apply hg i hi
    rw [List.get_eq_getElem, hgi]
    exact hv
  exact List.take_subset i l this

theorem visitEdges_spec {g : Graph}
    {next : String → List String → List String → Option (List String)}
    (hn : VisitSpec g next) (visited : List String) :
    ∀ (es res r : List String), visitEdges next visited es res = some r →
      List.IsPrefix res r ∧ (∀ e ∈ es, e ∈ r) ∧
      (goodList g res → goodList g r) ∧ (res.Nodup → r.Nodup) ∧
      (∀ S : String → Prop, (∀ u, S u → ∀ v ∈ g.edgesOf u, S v) →
        (∀ e ∈ es, S e) → (∀ x ∈ res, S x) → ∀ x ∈ r, S x) := by
  intro es
  induction es with
  | nil =>
    intro res r h
    simp only [visitEdges, Option.some.injEq] at h
    subst h
    exact ⟨List.prefix_refl _, by simp, id, id, fun S _ _ hres => hres⟩
  | cons e es ih =>
    intro res r h
    simp only [visitEdges] at h
    by_cases he : e ∈ res
    · rw [if_pos he] at h
      obtain ⟨h1, h2, h3, h4, h5⟩ := ih res r h
      refine ⟨h1, ?_, h3, h4, ?_⟩
      · intro x hx
        rcases List.mem_cons.mp hx with rfl | hx
        · exact h1.subset he
        · exact h2 x hx
      · intro S hS _ hres
        exact h5 S hS (fun x hx => by
          have : x ∈ e :: es := List.mem_cons_of_mem e hx
          exact (by assumption : ∀ y ∈ e :: es, S y) x this) hres
    · rw [if_neg he] at h
      by_cases hv : e ∈ visited
      · rw [if_pos hv] at h
        simp at h
      · rw [if_neg hv] at h
        cases hnx : next e res visited with
        | none => rw [hnx] at h; simp at h
        | some r1 =>
          rw [hnx] at h
          obtain ⟨p1, m1, g1, n1, s1⟩ := hn e res visited r1 hnx
          obtain ⟨p2, m2, g2, n2, s2⟩ := ih r1 r h
          refine ⟨p1.trans p2, ?_, fun hgood => g2 (g1 hgood), fun hnd => n2 (n1 hnd), ?_⟩
          · intro x hx
            rcases List.mem_cons.mp hx with rfl | hx
            · exact p2.subset m1
            · exact m2 x hx
          · intro S hS hes hres
            refine s2 S hS (fun x hx => hes x (List.mem_cons_of_mem e hx)) ?_
            exact s1 S hS (hes e (List.mem_cons_self e es)) hres

theorem visit_spec (g : Graph) (σ : Schedule) (hσ : Schedule.Admissible σ) :
    ∀ n : Nat, VisitSpec g (fun e res vis => visit g σ n e res vis) := by
  intro n
  induction n with
  | zero =>
    intro e res vis r h
    simp [visit] at h
  | succ n ih =>
    intro e res vis r h
    simp only [visit] at h
    cases hve : visitEdges (fun a b c => visit g σ n a b c) (vis ++ [e])
        (σ e (g.edgesOf e)) res with
    | none => rw [hve] at h; simp at h
    | some r1 =>
      rw [hve] at h
      simp only [Option.some.injEq] at h
      obtain ⟨p1, m1, g1, n1, s1⟩ := visitEdges_spec ih (vis ++ [e]) _ res r1 hve
      have hedge : ∀ v ∈ g.edgesOf e, v ∈ r1 := by
        intro v hv
        exact m1 v ((hσ e (g.edgesOf e)).mem_iff.mpr hv)
      by_cases her : e ∈ r1
      · rw [if_pos her] at h
        subst h
        refine ⟨p1, her, g1, n1, ?_⟩
        intro S hS hSe hres
        exact s1 S hS (fun x hx => hS e hSe x ((hσ e (g.edgesOf e)).mem_iff.mp hx)) hres
      · rw [if_neg her] at h
        subst h
        refine ⟨p1.trans (List.prefix_append r1 [e]), by simp, ?_, ?_, ?_⟩
        · intro hgood
          exact goodList_concat (g1 hgood) hedge
        · intro hnd
          simp [List.nodup_append, n1 hnd, her]
        · intro S hS hSe hres x hx
          rcases List.mem_append.mp hx with hx | hx
          · exact s1 S hS (fun y hy => hS e hSe y ((hσ e (g.edgesOf e)).mem_iff.mp hy)) hres x hx
          · rw [List.mem_singleton.mp hx]
            exact hSe

theorem topSort_spec {g : Graph} {σ : Schedule} (hσ : Schedule.Admissible σ)
    {node : String} {items : List String}
    (h : g.topSort σ node = some items) :
    goodList g items ∧ node ∈ items ∧ items.Nodup ∧
    (∀ x ∈ items, Reach g node x) ∧ (∀ x, Reach g node x → x ∈ items) := by
  obtain ⟨hpre, hmem, hgood, hnodup, hS⟩ :=
    visit_spec g σ hσ (topSortFuel g) node [] [] items h
  have hg : goodList g items := hgood (goodList_nil g)
  refine ⟨hg, hmem, hnodup List.nodup_nil, ?_, ?_⟩
  · intro x hx
    refine hS (Reach g node) ?_ (Reach.refl node) (by simp) x hx
    intro u hu v hv
    exact Reach.step hu hv
  · intro x hx
    induction hx with
    | refl => exact hmem
    | step h1 h2 ih => exact goodList_mem_closed hg _ ih _ h2

/-! ### Edge-recording lemmas for buildDependenciesGraph -/

theorem assocGet_insertEdgeList_self {l : List (String × List String)} {a b : String}
    (ha : (assocGet l a).isSome) :
    ∃ es, assocGet (insertEdgeList l a b) a = some es ∧ b ∈ es := by
  induction l with
  | nil => simp [assocGet] at ha
  | cons p rest ih =>
    obtain ⟨k, es⟩ := p
    by_cases hk : k = a
    · subst hk
      refine ⟨if b ∈ es then es else es ++ [b], ?_, ?_⟩
      · simp [insertEdgeList, assocGet]
      · by_cases hb : b ∈ es <;> simp [hb]
    · simp only [assocGet, if_neg hk] at ha
      obtain ⟨es2, h2, hb2⟩ := ih ha
      exact ⟨es2, by simp [insertEdgeList, assocGet, hk, h2], hb2⟩

theorem assocGet_insertEdgeList_preserve {l : List (String × List String)}
    {a b n : String} {es : List String} (h : assocGet l n = some es) :
    ∃ es2, assocGet (insertEdgeList l a b) n = some es2 ∧ ∀ x ∈ es, x ∈ es2 := by
  induction l with
  | nil => simp [assocGet] at h
  | cons p rest ih =>
    obtain ⟨k, kes⟩ := p
    by_cases hk : k = a
    · subst hk
      by_cases hn : k = n
      · subst hn
        have hkes : kes = es := by simpa [assocGet] using h
        subst hkes
        refine ⟨if b ∈ kes then kes else kes ++ [b], by simp [insertEdgeList, assocGet], ?_⟩
        by_cases hb : b ∈ kes
        · simp [hb]
        · simp only [hb, if_false, Bool.false_eq_true]
          exact fun x hx => List.mem_append_left _ hx
      · simp only [assocGet, if_neg hn] at h
        exact ⟨es, by simp [insertEdgeList, assocGet, hn, h], fun x hx => hx⟩
    · by_cases hn : k = n
      · subst hn
        have hkes : kes = es := by simpa [assocGet] using h
        subst hkes
        exact ⟨kes, by simp [insertEdgeList, assocGet, hk], fun x hx => hx⟩
      · simp only [assocGet, if_neg hn] at h
        obtain ⟨es2, h2, hm⟩ := ih h
        exact ⟨es2, by simp [insertEdgeList, assocGet, hk, hn, h2], hm⟩

theorem mem_edgesOf_iff {g : Graph} {n x : String} :
    x ∈ g.edgesOf n ↔ ∃ es, assocGet g.nodes n = some es ∧ x ∈ es := by
  unfold Graph.edgesOf
  cases h : assocGet g.nodes n with
  | none => simp
  | some es => simp

theorem addNode_isSome_self (g : Graph) (n : String) :
    (assocGet (g.addNode n).nodes n).isSome := by
  unfold Graph.addNode
  by_cases h : (assocGet g.nodes n).isSome
  · simp [h]
  · simp only [h, if_false, Bool.false_eq_true]
    cases hg : assocGet (g.nodes ++ [(n, [])]) n with
    | some es => simp
    | none =>
      exfalso
      have : ∀ l : List (String × List String), assocGet (l ++ [(n, [])]) n = none → False := by
        intro l
        induction l with
        | nil => simp [assocGet]
        | cons p rest ih =>
          obtain ⟨k, es⟩ := p
          by_cases hk : k = n
          · subst hk; simp [assocGet]
          · simp only [List.cons_append, assocGet, if_neg hk]
            exact ih
      exact this g.nodes hg

theorem assocGet_addNode_preserve {g : Graph} {m n : String} {es : List String}
    (h : assocGet g.nodes n = some es) :
    assocGet (g.addNode m).nodes n = some es := by
  unfold Graph.addNode
  by_cases hm : (assocGet g.nodes m).isSome
  · simp [hm, h]
  · simp only [hm, if_false, Bool.false_eq_true]
    have : ∀ l : List (String × List String), assocGet l n = some es →
        assocGet (l ++ [(m, [])]) n = some es := by
      intro l
      induction l with
      | nil => simp [assocGet]
      | cons p rest ih =>
        obtain ⟨k, kes⟩ := p
        by_cases hk : k = n
        · subst hk; simp [assocGet]
        · simp only [List.cons_append, assocGet, if_neg hk]
          exact ih
    exact this g.nodes h

theorem addNode_isSome_preserve {g : Graph} {m n : String}
    (h : (assocGet g.nodes n).isSome) :
    (assocGet (g.addNode m).nodes n).isSome := by
  cases hg : assocGet g.nodes n with
  | none => rw [hg] at h; simp at h
  | some es => rw [assocGet_addNode_preserve hg]; simp

theorem edgesOf_addEdge_self (g : Graph) (a b : String) :
    b ∈ (g.addEdge a b).edgesOf a := by
  rw [mem_edgesOf_iff]
  have ha : (assocGet ((g.addNode a).addNode b).nodes a).isSome :=
    addNode_isSome_preserve (addNode_isSome_self g a)
  obtain ⟨es, hes, hb⟩ := @assocGet_insertEdgeList_self ((g.addNode a).addNode b).nodes a b ha
  exact ⟨es, hes, hb⟩

theorem edgesOf_addNode_mono {g : Graph} {m n x : String}
    (h : x ∈ g.edgesOf n) : x ∈ (g.addNode m).edgesOf n := by
  rw [mem_edgesOf_iff] at h ⊢
  obtain ⟨es, hes, hx⟩ := h
  exact ⟨es, assocGet_addNode_preserve hes, hx⟩

theorem edgesOf_addEdge_mono {g : Graph} {a b n x : String}
    (h : x ∈ g.edgesOf n) : x ∈ (g.addEdge a b).edgesOf n := by
  rw [mem_edgesOf_iff] at h
  obtain ⟨es, hes, hx⟩ := h
  have h1 := @assocGet_addNode_preserve g a n es hes
  have h2 := @assocGet_addNode_preserve (g.addNode a) b n es h1
  obtain ⟨es2, hes2, hm⟩ := @assocGet_insertEdgeList_preserve ((g.addNode a).addNode b).nodes a b n es h2
  rw [mem_edgesOf_iff]
  exact ⟨es2, hes2, hm x hx⟩

theorem edgesOf_depsFold_mono (pname : String) (deps : List String) :
    ∀ (st : Graph × List (String × Bool)) {n x : String}, x ∈ st.1.edgesOf n →
      x ∈ ((deps.foldl
        (fun (st : Graph × List (String × Bool)) d => (st.1.addEdge pname d, setFalse st.2 d))
        st).1.edgesOf n) := by
  induction deps with
  | nil => intro st n x h; exact h
  | cons d rest ih =>
    intro st n x h
    exact ih (st.1.addEdge pname d, setFalse st.2 d) (edgesOf_addEdge_mono h)

theorem edgesOf_depsFold_self (pname : String) (deps : List String) :
    ∀ (st : Graph × List (String × Bool)) {child : String}, child ∈ deps →
      child ∈ ((deps.foldl
        (fun (st : Graph × List (String × Bool)) d => (st.1.addEdge pname d, setFalse st.2 d))
        st).1.edgesOf pname) := by
  induction deps with
  | nil => intro st child h; simp at h
  | cons d rest ih =>
    intro st child h
    rcases List.mem_cons.mp h with rfl | h
    · exact edgesOf_depsFold_mono pname rest _ (edgesOf_addEdge_self st.1 pname child)
    · exact ih _ h

theorem edgesOf_buildGraphStep_mono {acc : Graph × List (String × Bool)} {p : Package}
    {n x : String} (h : x ∈ acc.1.edgesOf n) :
    x ∈ (buildGraphStep acc p).1.edgesOf n := by
  unfold buildGraphStep
  exact edgesOf_depsFold_mono p.name p.dependencies _ (edgesOf_addNode_mono h)

theorem edgesOf_buildGraphStep_self {acc : Graph × List (String × Bool)} {p : Package}
    {child : String} (h : child ∈ p.dependencies) :
    child ∈ (buildGraphStep acc p).1.edgesOf p.name := by
  unfold buildGraphStep
  exact edgesOf_depsFold_self p.name p.dependencies _ h

theorem edgesOf_pkgFold_mono (packages : List Package) :
    ∀ (acc : Graph × List (String × Bool)) {n x : String}, x ∈ acc.1.edgesOf n →
      x ∈ ((packages.foldl buildGraphStep acc).1.edgesOf n) := by
  induction packages with
  | nil => intro acc n x h; exact h
  | cons p rest ih =>
    intro acc n x h
    exact ih _ (edgesOf_buildGraphStep_mono h)

theorem edgesOf_pkgFold (packages : List Package) :
    ∀ (acc : Graph × List (String × Bool)) {parent : Package} {child : String},
      parent ∈ packages → child ∈ parent.dependencies →
      child ∈ ((packages.foldl buildGraphStep acc).1.edgesOf parent.name) := by
  induction packages with
  | nil => intro acc parent child h; simp at h
  | cons p rest ih =>
    intro acc parent child hp hc
    rcases List.mem_cons.mp hp with rfl | hp
    · exact edgesOf_pkgFold_mono rest _ (edgesOf_buildGraphStep_self hc)
    · exact ih _ hp hc

theorem edgesOf_addRootEdges_mono {g : Graph} {names : List (String × Bool)}
    {n x : String} (h : x ∈ g.edgesOf n) :
    x ∈ (addRootEdges g names).edgesOf n := by
  unfold addRootEdges
  induction names generalizing g with
  | nil => exact h
  | cons p rest ih =>
    simp only [List.foldl_cons]
    by_cases hp : p.2
    · simp only [hp, if_true]
      exact ih (edgesOf_addEdge_mono h)
    · simp only [hp]
      exact ih h

theorem mem_edgesOf_buildDependenciesGraph {packages : List Package}
    {parent : Package} {child : String}
    (hp : parent ∈ packages) (hc : child ∈ parent.dependencies) :
    child ∈ (buildDependenciesGraph packages).edgesOf parent.name := by
  unfold buildDependenciesGraph
  exact edgesOf_addRootEdges_mono (edgesOf_pkgFold packages _ hp hc)

/-- Claim C2, counterexample: with package b and its parent a (recorded
edge a to b), the build loop merges b strictly before a under the
recorded-order schedule, so the parent is not merged before the child. -/
theorem c2_counterexample :
    mergeOrder c2Packages idSchedule = some ["b", "a"] ∧
    "b" ∈ (buildDependenciesGraph c2Packages).edgesOf "a" ∧
    ¬ mergedBefore ["b", "a"] "a" "b" := by
  refine ⟨rfl, by decide, ?_⟩
  intro hmb
  have := hmb.2.2
  simp [List.indexOf, List.findIdx, List.findIdx.go] at this

/-- Claim C2 (amended): the build loop processes packages in the
post-order the topsort library emits from the synthetic root, so for
every recorded parent-to-child edge the child package is merged
strictly before the parent package, and the synthetic root itself is
never merged. -/
theorem c2_topo_order_amended
    (packages : List Package) (σ : Schedule) (hσ : Schedule.Admissible σ)
    (items : List String)
    (h : Graph.topSort (buildDependenciesGraph packages) σ DependencyRoot = some items)
    (parent : Package) (hp : parent ∈ packages)
    (child : String) (hc : child ∈ parent.dependencies)
    (hmem : parent.name ∈ items) :
    (∃ j i : Nat, j < i ∧ items[j]? = some child ∧ items[i]? = some parent.name) ∧
    DependencyRoot ∉ items.filter (fun s => decide (s ≠ DependencyRoot)) := by
  obtain ⟨hgood, _, _, _, _⟩ := topSort_spec hσ h
  constructor
  · obtain ⟨i, hi, hgi⟩ := List.mem_iff_getElem.mp hmem
    have hchild : child ∈ (buildDependenciesGraph packages).edgesOf parent.name :=
      mem_edgesOf_buildDependenciesGraph hp hc
    have htake : child ∈ items.take i := by
      apply hgood i hi
      rw [List.get_eq_getElem, hgi]
      exact hchild
    obtain ⟨j, hj, hgj⟩ := List.mem_iff_getElem.mp htake
    have hjl : j < i := by
      have := hj
      simp [List.length_take] at this
      omega
    have hjlen : j < items.length := by omega
    refine ⟨j, i, hjl, ?_, ?_⟩
    · rw [List.getElem?_eq_getElem hjlen]
      rw [List.getElem_take] at hgj
      exact congrArg some hgj
    · rw [List.getElem?_eq_getElem hi]
      exact congrArg some hgi
  · intro hmem2
    have := List.mem_filter.mp hmem2
    simp at this

/-- Claim C2 amended, witness run: the concrete two-package input with
the recorded-order schedule, discharging every hypothesis of the
amended ordering theorem. -/
theorem c2_topo_order_amended_witness :
    (∃ j i : Nat, j < i ∧ (["b", "a", "root"] : List String)[j]? = some "b" ∧
      (["b", "a", "root"] : List String)[i]? = some "a") ∧
    DependencyRoot ∉ (["b", "a", "root"] : List String).filter
      (fun s => decide (s ≠ DependencyRoot)) := by
  exact c2_topo_order_amended c2Packages idSchedule (fun n l => List.Perm.refl l)
    ["b", "a", "root"] rfl (pkgPlain "a" ["b"]) (by decide) "b" (by decide) (by decide)

/-! ## Theorems about strategy evaluation and the default merge (claims C3, C4) -/

theorem assocGet_append_single_ne {l : Entries} {k q : List Char} {v : FsEntry}
    (h : k ≠ q) : assocGet (l ++ [(k, v)]) q = assocGet l q := by
  induction l with
  | nil => simp [assocGet, h]
  | cons p rest ih =>
    obtain ⟨k0, v0⟩ := p
    by_cases hk : k0 = q
    · simp [assocGet, hk]
    · simp [assocGet, hk, ih]

theorem assocGet_append_single_self {l : Entries} {q : List Char} {v : FsEntry}
    (h : assocGet l q = none) : assocGet (l ++ [(q, v)]) q = some v := by
  induction l with
  | nil => simp [assocGet]
  | cons p rest ih =>
    obtain ⟨k0, v0⟩ := p
    by_cases hk : k0 = q
    · simp [assocGet, hk] at h
    · simp only [assocGet, if_neg hk] at h
      simp [assocGet, hk, ih h]

theorem buildWalkStep_default_preserve {pkgPath : List Char} {pkgName : String}
    {modern : Bool} {st : Entries} {w : WalkEntry} {q : List Char} {v : FsEntry}
    (h : assocGet st q = some v) :
    assocGet (buildWalkStep none pkgPath pkgName modern st w) q = some v := by
  unfold buildWalkStep
  by_cases hg : gitPre.isPrefixOf w.path
  · simp [hg, h]
  · simp only [hg, if_false, Bool.false_eq_true]
    unfold addEntries
    cases ha : assocGet st (adjustDestinationPath w.path modern) with
    | some e => simpa using h
    | none =>
      have hne : adjustDestinationPath w.path modern ≠ q := by
        intro he
        rw [he, h] at ha
        exact Option.noConfusion ha
      simpa [assocGet_append_single_ne hne] using h

theorem processPackage_default_preserve {pkgPath : List Char} {pkgName : String}
    {modern : Bool} {q : List Char} {v : FsEntry} (walk : List WalkEntry) :
    ∀ st : Entries, assocGet st q = some v →
      assocGet (processPackage none pkgPath pkgName modern st walk) q = some v := by
  induction walk with
  | nil => intro st h; exact h
  | cons w rest ih =>
    intro st h
    exact ih _ (buildWalkStep_default_preserve h)

theorem processDefaultRuns_preserve {q : List Char} {v : FsEntry} (runs : List PkgRun) :
    ∀ st : Entries, assocGet st q = some v →
      assocGet (processDefaultRuns st runs) q = some v := by
  induction runs with
  | nil => intro st h; exact h
  | cons r rest ih =>
    intro st h
    exact ih _ (processPackage_default_preserve r.walk st h)

theorem bool_eq_false_of_not {b : Bool} (h : ¬ b = true) : b = false := by
  cases b
  · rfl
  · exact absurd rfl h

theorem mem_producedPaths_cons_of {modern : Bool} {w : WalkEntry} {rest : List WalkEntry}
    {p : List Char} (hg : gitPre.isPrefixOf w.path = false)
    (hp : adjustDestinationPath w.path modern = p) :
    p ∈ producedPaths modern (w :: rest) := by
  unfold producedPaths
  rw [List.filter_cons_of_pos (by simp only [hg, Bool.not_false])]
  simp [hp]

theorem producedPaths_cons_subset {modern : Bool} {w : WalkEntry} {rest : List WalkEntry}
    {p : List Char} (hp : p ∈ producedPaths modern rest) :
    p ∈ producedPaths modern (w :: rest) := by
  unfold producedPaths at hp ⊢
  cases hg : gitPre.isPrefixOf w.path with
  | true =>
    rw [List.filter_cons_of_neg
      (by simp only [hg, Bool.not_true]; exact fun hf => Bool.noConfusion hf)]
    exact hp
  | false =>
    rw [List.filter_cons_of_pos (by simp only [hg, Bool.not_false])]
    simp only [List.map_cons, List.mem_cons]
    exact Or.inr hp

theorem processPackage_default_not_produced {pkgPath : List Char} {pkgName : String}
    {modern : Bool} {p : List Char} (walk : List WalkEntry)
    (hnp : p ∉ producedPaths modern walk) :
    ∀ st : Entries,
      assocGet (processPackage none pkgPath pkgName modern st walk) p = assocGet st p := by
  induction walk with
  | nil => intro st; rfl
  | cons w rest ih =>
    intro st
    have hnrest : p ∉ producedPaths modern rest := fun h => hnp (producedPaths_cons_subset h)
    unfold processPackage at ih ⊢
    simp only [List.foldl_cons]
    by_cases hg : gitPre.isPrefixOf w.path
    · rw [show buildWalkStep none pkgPath pkgName modern st w = st by simp [buildWalkStep, hg]]
      exact ih hnrest st
    · have hne : adjustDestinationPath w.path modern ≠ p := by
        intro he
        exact hnp (mem_producedPaths_cons_of (bool_eq_false_of_not hg) he)
      have hstep : assocGet (buildWalkStep none pkgPath pkgName modern st w) p = assocGet st p := by
        unfold buildWalkStep addEntries
        simp only [hg, if_false, Bool.false_eq_true]
        cases ha : assocGet st (adjustDestinationPath w.path modern) with
        | some e => simp
        | none => simp [assocGet_append_single_ne hne]
      rw [ih hnrest _, hstep]

theorem processPackage_default_insert {pkgPath : List Char} {pkgName : String}
    {modern : Bool} {p : List Char} (walk : List WalkEntry) :
    ∀ st : Entries, assocGet st p = none →
      ∀ w : WalkEntry, firstEntryAt modern walk p = some w →
      assocGet (processPackage none pkgPath pkgName modern st walk) p =
        some { pfx := pkgPath, srcPath := w.path, dstPath := adjustDestinationPath w.path modern
               isDir := w.isDir, origin := pkgName.data } := by
  induction walk with
  | nil => intro st h w hw; simp [firstEntryAt] at hw
  | cons w0 rest ih =>
    intro st h w hw
    unfold firstEntryAt at hw
    rw [List.find?_cons] at hw
    cases hpred : (!(gitPre.isPrefixOf w0.path)
        && (adjustDestinationPath w0.path modern == p)) with
    | true =>
      rw [hpred] at hw
      have hww : w0 = w := Option.some.inj hw
      subst hww
      obtain ⟨hg, hadj⟩ := Bool.and_eq_true_iff.mp hpred
      have hg2 : gitPre.isPrefixOf w0.path = false := by
        cases hb : gitPre.isPrefixOf w0.path
        · rfl
        · rw [hb] at hg; exact Bool.noConfusion hg
      have hadj2 : adjustDestinationPath w0.path modern = p := by
        simpa [beq_iff_eq] using hadj
      unfold processPackage
      simp only [List.foldl_cons]
      have hstep : buildWalkStep none pkgPath pkgName modern st w0 =
          st ++ [(p,
            { pfx := pkgPath, srcPath := w0.path, dstPath := adjustDestinationPath w0.path modern
              isDir := w0.isDir, origin := pkgName.data })] := by
        unfold buildWalkStep addEntries
        simp only [hg2, Bool.false_eq_true, if_false, hadj2, h]
      rw [hstep]
      have hsome : assocGet (st ++ [(p,
          ({ pfx := pkgPath, srcPath := w0.path, dstPath := adjustDestinationPath w0.path modern
             isDir := w0.isDir, origin := pkgName.data } : FsEntry))]) p =
          some { pfx := pkgPath, srcPath := w0.path
                 dstPath := adjustDestinationPath w0.path modern
                 isDir := w0.isDir, origin := pkgName.data } :=
        assocGet_append_single_self h
      exact processPackage_default_preserve rest _ hsome
    | false =>
      rw [hpred] at hw
      have hw2 : List.find? (fun w =>
          !(gitPre.isPrefixOf w.path) && (adjustDestinationPath w.path modern == p)) rest =
          some w := hw
      unfold processPackage
      simp only [List.foldl_cons]
      by_cases hg : gitPre.isPrefixOf w0.path
      · have hstay : assocGet (buildWalkStep none pkgPath pkgName modern st w0) p = none := by
          unfold buildWalkStep
          simp only [hg, if_true]
          exact h
        exact ih _ hstay w hw2
      · have hg2 : gitPre.isPrefixOf w0.path = false := bool_eq_false_of_not hg
        have hne : adjustDestinationPath w0.path modern ≠ p := by
          intro he
          rw [hg2, he] at hpred
          simp at hpred
        have hstay : assocGet (buildWalkStep none pkgPath pkgName modern st w0) p = none := by
          unfold buildWalkStep addEntries
          simp only [hg2, Bool.false_eq_true, if_false]
          cases ha : assocGet st (adjustDestinationPath w0.path modern) with
          | some e => simpa using h
          | none => simpa [assocGet_append_single_ne hne] using h
        exact ih _ hstay w hw2

/-- Claim C3, counterexample: a package declaring one
filter-package-files strategy scoped to the cfg directory, and an
entry outside that scope on an unoccupied destination: no strategy
path set matches, yet the entry is dropped by the strategy evaluator
while the default first-writer-wins rule would insert it. -/
theorem c3_counterexample :
    strategyMatches filterStrategyCfg fileEntryOther ("other/file.txt".data) = false ∧
    addStrategyEntries [filterStrategyCfg] [] fileEntryOther ("other/file.txt".data) =
      ([], .noConflict) ∧
    addEntries [] fileEntryOther ("other/file.txt".data) =
      ([("other/file.txt".data, fileEntryOther)], .noConflict) :=
  ⟨by decide, by decide, rfl⟩

/-- Claim C3 (amended): a walked entry matching none of the declared
strategies falls through to the default first-writer-wins rule
provided every declared strategy is overwrite-local-file or
ignore-extra-package-files; a reached filter-package-files strategy
always ends evaluation, dropping a non-matching entry. -/
theorem c3_fall_through_amended
    (ss : List MergeStrategy) (entries : Entries) (e : FsEntry) (path : List Char)
    (hss : ∀ ms ∈ ss,
      (ms.s = MergeStrategyType.overwriteLocalFile ∨
        ms.s = MergeStrategyType.ignoreExtraPackageFiles) ∧
      ensureStrategyPrefixPath path ms.paths = false) :
    addStrategyEntries ss entries e path = addEntries entries e path := by
  induction ss with
  | nil => rfl
  | cons ms rest ih =>
    obtain ⟨hty, hnm⟩ := hss ms (List.mem_cons_self ms rest)
    have hrest := fun m hm => hss m (List.mem_cons_of_mem ms hm)
    rcases hty with h | h
    · have hstep : addStrategyEntries (ms :: rest) entries e path =
          addStrategyEntries rest entries e path := by
        simp [addStrategyEntries, h, hnm]
      rw [hstep]
      exact ih hrest
    · have hstep : addStrategyEntries (ms :: rest) entries e path =
          addStrategyEntries rest entries e path := by
        simp [addStrategyEntries, h, hnm]
      rw [hstep]
      exact ih hrest

/-- Claim C3 amended, witness: one non-matching overwrite strategy
falls through to the default rule on a concrete entry. -/
theorem c3_fall_through_amended_witness :
    addStrategyEntries [overwriteStrategyCfg] [] fileEntryOther ("other/file.txt".data) =
      addEntries [] fileEntryOther ("other/file.txt".data) :=
  c3_fall_through_amended [overwriteStrategyCfg] [] fileEntryOther ("other/file.txt".data)
    (by
      intro ms hm
      rw [List.mem_singleton] at hm
      subst hm
      exact ⟨Or.inl rfl, by decide⟩)

/-- Claim C4: the default merge discards an entry whose destination is
occupied and keeps the existing one, inserts into an unoccupied
destination, and across strategy-less packages the first producer of a
destination wins: with no earlier producer of the path, package A
producing it first, and any later packages (including a later producer
B), the materialized bytes at the path are A's. -/
theorem c4_default_first_writer_wins
    (entries0 : Entries) (pre post : List PkgRun) (A : PkgRun) (p : List Char)
    (content : List Char → List Char → List Char)
    (h0 : assocGet entries0 p = none)
    (hpre : ∀ r ∈ pre, p ∉ producedPaths r.modern r.walk)
    (w : WalkEntry) (hA : firstEntryAt A.modern A.walk p = some w) :
    (∀ (st : Entries) (e v : FsEntry) (q : List Char),
      assocGet st q = some v → addEntries st e q = (st, .resolveToLocal)) ∧
    (∀ (st : Entries) (e : FsEntry) (q : List Char),
      assocGet st q = none → addEntries st e q = (st ++ [(q, e)], .noConflict)) ∧
    output content (processDefaultRuns entries0 (pre ++ A :: post)) p =
      some (content A.pkgPath w.path) := by
  refine ⟨?_, ?_, ?_⟩
  · intro st e v q h
    unfold addEntries
    rw [h]
  · intro st e q h
    unfold addEntries
    rw [h]
  · have hpre2 : assocGet (processDefaultRuns entries0 pre) p = none := by
      clear hA
      induction pre generalizing entries0 with
      | nil => exact h0
      | cons r rest ih =>
        have hr : p ∉ producedPaths r.modern r.walk := hpre r (List.mem_cons_self r rest)
        have hrest : ∀ x ∈ rest, p ∉ producedPaths x.modern x.walk :=
          fun x hx => hpre x (List.mem_cons_of_mem r hx)
        unfold processDefaultRuns
        simp only [List.foldl_cons]
        have := @processPackage_default_not_produced r.pkgPath r.pkgName r.modern p
          r.walk hr entries0
        exact ih _ (by rw [this]; exact h0) hrest
    have hsplit : processDefaultRuns entries0 (pre ++ A :: post) =
        processDefaultRuns
          (processPackage none A.pkgPath A.pkgName A.modern
            (processDefaultRuns entries0 pre) A.walk) post := by
      unfold processDefaultRuns
      rw [List.foldl_append, List.foldl_cons]
    have hinsert := @processPackage_default_insert A.pkgPath A.pkgName A.modern p
      A.walk (processDefaultRuns entries0 pre) hpre2 w hA
    have hfinal := processDefaultRuns_preserve post _ hinsert
    rw [hsplit]
    unfold output
    rw [hfinal]
    rfl

/-- A strategy-less one-file package run used as witness input. -/
def runProducing (name : String) (pkgPath : List Char) : PkgRun :=
  { pkgPath := pkgPath, pkgName := name, modern := true
    walk := [{ path := "x/y.yaml".data, isDir := false }] }

/-- Claim C4, witness: packages a then b both producing the x/y.yaml
destination with different bytes; the output bytes are a's. -/
theorem c4_default_first_writer_wins_witness :
    (∀ (st : Entries) (e v : FsEntry) (q : List Char),
      assocGet st q = some v → addEntries st e q = (st, .resolveToLocal)) ∧
    (∀ (st : Entries) (e : FsEntry) (q : List Char),
      assocGet st q = none → addEntries st e q = (st ++ [(q, e)], .noConflict)) ∧
    output (fun pfx src => pfx ++ ('/' :: src))
      (processDefaultRuns [] ([] ++ runProducing "a" ("pkgs/a/latest".data)
        :: [runProducing "b" ("pkgs/b/latest".data)])) ("x/y.yaml".data) =
      some (("pkgs/a/latest".data) ++ ('/' :: "x/y.yaml".data)) :=
  c4_default_first_writer_wins [] [] [runProducing "b" ("pkgs/b/latest".data)]
    (runProducing "a" ("pkgs/a/latest".data)) ("x/y.yaml".data)
    (fun pfx src => pfx ++ ('/' :: src)) rfl (by simp)
    { path := "x/y.yaml".data, isDir := false } (by decide)


/-! ## Theorems about destination path normalization (claim C5) -/

theorem findSub_nil_of_cons (c : Char) (q : List Char) : findSub (c :: q) [] = none := rfl

theorem findSub_append_sepfree {q : List Char} :
    ∀ (a t : List Char), (∀ ch ∈ a, ch ≠ '/') →
      findSub ('/' :: q) (a ++ t) = (findSub ('/' :: q) t).map (· + a.length) := by
  intro a
  induction a with
  | nil =>
    intro t _
    simp only [List.nil_append, List.length_nil]
    cases findSub ('/' :: q) t <;> simp
  | cons c a ih =>
    intro t hc
    have hcne : c ≠ '/' := hc c (List.mem_cons_self c a)
    have hrest : ∀ ch ∈ a, ch ≠ '/' := fun ch hch => hc ch (List.mem_cons_of_mem c hch)
    simp only [List.cons_append, findSub, List.append_eq]
    have hpre : ('/' :: q).isPrefixOf (c :: (a ++ t)) = false := by
      simp [List.isPrefixOf]
      intro he
      exact absurd he.symm hcne
    rw [hpre]
    simp only [Bool.false_eq_true, if_false, ih t hrest]
    cases findSub ('/' :: q) t <;> simp [Nat.add_assoc, Nat.add_comm 1 _]

theorem isPrefixOf_sep_cons (q t : List Char) :
    ('/' :: q).isPrefixOf ('/' :: t) = q.isPrefixOf t := by
  simp [List.isPrefixOf]

theorem notPrefix_into_segment {w : List Char} :
    ∀ b : List Char, (∀ ch ∈ b, ch ≠ '/') → (w ++ ['/']).isPrefixOf b = false := by
  intro b
  induction b generalizing w with
  | nil =>
    intro _
    cases w <;> rfl
  | cons y b ih =>
    intro hb
    have hy : y ≠ '/' := hb y (List.mem_cons_self y b)
    have hb2 : ∀ ch ∈ b, ch ≠ '/' := fun ch hch => hb ch (List.mem_cons_of_mem y hch)
    cases w with
    | nil =>
      simp [List.isPrefixOf]
      intro he
      exact absurd he.symm hy
    | cons x w2 =>
      simp only [List.cons_append, List.isPrefixOf, List.append_eq]
      rw [ih hb2]
      simp


theorem prefix_seg_iff {w : List Char} :
    ∀ (b : List Char) (t : List Char), (∀ ch ∈ w, ch ≠ '/') → (∀ ch ∈ b, ch ≠ '/') →
      ((w ++ ['/']).isPrefixOf (b ++ '/' :: t) = true ↔ w = b) := by
  induction w with
  | nil =>
    intro b t _ hb
    cases b with
    | nil => simp [List.isPrefixOf]
    | cons y b2 =>
      have hy : y ≠ '/' := hb y (List.mem_cons_self y b2)
      simp [List.isPrefixOf]
      intro he
      exact absurd he.symm hy
  | cons x w2 ih =>
    intro b t hw hb
    have hx : x ≠ '/' := hw x (List.mem_cons_self x w2)
    have hw2 : ∀ ch ∈ w2, ch ≠ '/' := fun ch hch => hw ch (List.mem_cons_of_mem x hch)
    cases b with
    | nil =>
      simp [List.isPrefixOf]
      intro he
      exact absurd he hx
    | cons y b2 =>
      have hb2 : ∀ ch ∈ b2, ch ≠ '/' := fun ch hch => hb ch (List.mem_cons_of_mem y hch)
      simp only [List.cons_append, List.isPrefixOf, List.append_eq, Bool.and_eq_true,
        beq_iff_eq]
      rw [ih b2 t hw2 hb2]
      constructor
      · rintro ⟨rfl, rfl⟩; rfl
      · intro he
        injection he with h1 h2
        exact ⟨h1, h2⟩

theorem replInteriorSeg_ne_nil {word : List Char} {reps : Segs} :
    ∀ {segs r : Segs}, replInteriorSeg word reps segs = some r → r ≠ [] := by
  intro segs
  induction segs with
  | nil => intro r h; simp [replInteriorSeg] at h
  | cons a tail ih =>
    intro r h
    match tail, h with
    | [], h => simp [replInteriorSeg] at h
    | [b], h => simp [replInteriorSeg] at h
    | b :: c :: rest, h =>
      simp only [replInteriorSeg] at h
      by_cases hb : b = word
      · rw [if_pos hb] at h
        have := Option.some.inj h
        subst this
        simp
      · rw [if_neg hb] at h
        cases hre : replInteriorSeg word reps (b :: c :: rest) with
        | none => rw [hre] at h; simp at h
        | some r2 =>
          rw [hre] at h
          simp only [Option.map_some', Option.some.injEq] at h
          subst h
          simp



theorem joinSegs_cons_of_ne_nil (a : List Char) {r : Segs} (h : r ≠ []) :
    joinSegs (a :: r) = a ++ '/' :: joinSegs r := by
  cases r with
  | nil => exact absurd rfl h
  | cons b rest => rfl

theorem interiorReplace_align (w ρchunk : List Char) (reps : Segs)
    (hw : ∀ c ∈ w, c ≠ '/')
    (hρ : ∀ (a : List Char) (rest : Segs), rest ≠ [] →
      joinSegs (a :: (reps ++ rest)) = a ++ ρchunk ++ joinSegs rest) :
    ∀ segs : Segs, (∀ s ∈ segs, s ≠ [] ∧ ∀ c ∈ s, c ≠ '/') →
      (findSub ('/' :: (w ++ ['/'])) (joinSegs segs)).map
        (fun idx => (joinSegs segs).take idx ++ ρchunk ++
          (joinSegs segs).drop (idx + (w.length + 2))) =
      (replInteriorSeg w reps segs).map joinSegs := by
  intro segs
  induction segs with
  | nil =>
    intro _
    simp [joinSegs, replInteriorSeg, findSub, List.isPrefixOf]
  | cons a tail ih =>
    intro hv
    have hva : ∀ c ∈ a, c ≠ '/' := (hv a (List.mem_cons_self a tail)).2
    have hvt : ∀ s ∈ tail, s ≠ [] ∧ ∀ c ∈ s, c ≠ '/' :=
      fun s hs => hv s (List.mem_cons_of_mem a hs)
    cases tail with
    | nil =>
      have h1 : findSub ('/' :: (w ++ ['/'])) a = none := by
        have h2 := @findSub_append_sepfree (w ++ ['/']) a [] hva
        rw [List.append_nil] at h2
        rw [h2, findSub_nil_of_cons]
        rfl
      show (findSub ('/' :: (w ++ ['/'])) (joinSegs [a])).map _ = _
      rw [show joinSegs [a] = a from rfl, h1]
      simp [replInteriorSeg]
    | cons b tail2 =>
      have hvb : b ≠ [] ∧ ∀ c ∈ b, c ≠ '/' := hvt b (List.mem_cons_self b tail2)
      have hjoin : joinSegs (a :: b :: tail2) = a ++ '/' :: joinSegs (b :: tail2) := rfl
      have hstep1 : findSub ('/' :: (w ++ ['/'])) (joinSegs (a :: b :: tail2)) =
          (findSub ('/' :: (w ++ ['/'])) ('/' :: joinSegs (b :: tail2))).map
            (· + a.length) := by
        rw [hjoin]
        exact findSub_append_sepfree a ('/' :: joinSegs (b :: tail2)) hva
      cases tail2 with
      | nil =>
        have hJ : joinSegs [b] = b := rfl
        have hpre : ('/' :: (w ++ ['/'])).isPrefixOf ('/' :: joinSegs [b]) = false := by
          rw [isPrefixOf_sep_cons, hJ]
          exact notPrefix_into_segment b hvb.2
        have hsub : findSub ('/' :: (w ++ ['/'])) (joinSegs [b]) = none := by
          rw [hJ]
          have h2 := @findSub_append_sepfree (w ++ ['/']) b [] hvb.2
          rw [List.append_nil] at h2
          rw [h2, findSub_nil_of_cons]
          rfl
        have hsub2 : findSub ('/' :: (w ++ ['/'])) ('/' :: joinSegs [b]) = none := by
          show (if ('/' :: (w ++ ['/'])).isPrefixOf ('/' :: joinSegs [b]) = true then some 0
            else (findSub ('/' :: (w ++ ['/'])) (joinSegs [b])).map (· + 1)) = none
          rw [hpre, hsub]
          rfl
        rw [hstep1, hsub2]
        simp [replInteriorSeg]
      | cons c rest =>
        have hJ2 : joinSegs (b :: c :: rest) = b ++ '/' :: joinSegs (c :: rest) := rfl
        by_cases hbw : b = w
        · have hpre : ('/' :: (w ++ ['/'])).isPrefixOf
              ('/' :: joinSegs (b :: c :: rest)) = true := by
            rw [isPrefixOf_sep_cons, hJ2]
            exact (prefix_seg_iff b (joinSegs (c :: rest)) hw hvb.2).mpr hbw.symm
          have hsub : findSub ('/' :: (w ++ ['/'])) ('/' :: joinSegs (b :: c :: rest)) =
              some 0 := by
            show (if ('/' :: (w ++ ['/'])).isPrefixOf ('/' :: joinSegs (b :: c :: rest)) = true
              then some 0
              else (findSub ('/' :: (w ++ ['/'])) (joinSegs (b :: c :: rest))).map (· + 1)) =
                some 0
            rw [hpre]
            rfl
          rw [hstep1, hsub]
          have hfull : joinSegs (a :: b :: c :: rest) =
              a ++ (('/' :: (w ++ ['/'])) ++ joinSegs (c :: rest)) := by
            rw [hjoin, hJ2, hbw]
            simp [List.append_assoc]
          have htake : (joinSegs (a :: b :: c :: rest)).take (0 + a.length) = a := by
            rw [hfull]
            have : 0 + a.length = a.length := by omega
            rw [this]
            exact List.take_left a _
          have hdrop : (joinSegs (a :: b :: c :: rest)).drop
              ((0 + a.length) + (w.length + 2)) = joinSegs (c :: rest) := by
            rw [hfull]
            have h3 : (0 + a.length) + (w.length + 2) = a.length + (w.length + 2) := by omega
            rw [h3, List.drop_append]
            have h4 : ('/' :: (w ++ ['/'])).length = w.length + 2 := by simp
            exact List.drop_left' h4
          simp only [Option.map_some']
          rw [htake, hdrop]
          have hrepl : replInteriorSeg w reps (a :: b :: c :: rest) =
              some (a :: (reps ++ (c :: rest))) := by
            simp [replInteriorSeg, hbw]
          rw [hrepl]
          simp only [Option.map_some', Option.some.injEq]
          rw [hρ a (c :: rest) (by simp)]
        · have hpre : ('/' :: (w ++ ['/'])).isPrefixOf
              ('/' :: joinSegs (b :: c :: rest)) = false := by
            rw [isPrefixOf_sep_cons, hJ2]
            exact bool_eq_false_of_not (fun h =>
              hbw ((prefix_seg_iff b (joinSegs (c :: rest)) hw hvb.2).mp h).symm)
          have hsub : findSub ('/' :: (w ++ ['/'])) ('/' :: joinSegs (b :: c :: rest)) =
              (findSub ('/' :: (w ++ ['/'])) (joinSegs (b :: c :: rest))).map (· + 1) := by
            show (if ('/' :: (w ++ ['/'])).isPrefixOf ('/' :: joinSegs (b :: c :: rest)) = true
              then some 0
              else (findSub ('/' :: (w ++ ['/'])) (joinSegs (b :: c :: rest))).map (· + 1)) = _
            rw [hpre]
            rfl
          have hreplstep : replInteriorSeg w reps (a :: b :: c :: rest) =
              (replInteriorSeg w reps (b :: c :: rest)).map (a :: ·) := by
            simp [replInteriorSeg, hbw]
          rw [hstep1, hsub, hreplstep]
          have ihspec := ih hvt
          cases hfs : findSub ('/' :: (w ++ ['/'])) (joinSegs (b :: c :: rest)) with
          | none =>
            rw [hfs] at ihspec
            simp only [Option.map_none'] at ihspec
            cases hre : replInteriorSeg w reps (b :: c :: rest) with
            | none => simp [hre]
            | some r =>
              rw [hre] at ihspec
              simp at ihspec
          | some idx =>
            rw [hfs] at ihspec
            cases hre : replInteriorSeg w reps (b :: c :: rest) with
            | none =>
              rw [hre] at ihspec
              simp at ihspec
            | some r =>
              rw [hre] at ihspec
              simp only [Option.map_some', Option.some.injEq] at ihspec
              have hrne : r ≠ [] := replInteriorSeg_ne_nil hre
              simp only [Option.map_some', Option.some.injEq]
              rw [joinSegs_cons_of_ne_nil a hrne, ← ihspec]
              have htake : (joinSegs (a :: b :: c :: rest)).take ((idx + 1) + a.length) =
                  a ++ '/' :: (joinSegs (b :: c :: rest)).take idx := by
                rw [hjoin]
                have h3 : (idx + 1) + a.length = a.length + (idx + 1) := by omega
                rw [h3, List.take_append]
                rfl
              have hdrop : (joinSegs (a :: b :: c :: rest)).drop
                  (((idx + 1) + a.length) + (w.length + 2)) =
                  (joinSegs (b :: c :: rest)).drop (idx + (w.length + 2)) := by
                rw [hjoin]
                have h3 : ((idx + 1) + a.length) + (w.length + 2) =
                    a.length + ((idx + (w.length + 2)) + 1) := by omega
                rw [h3, List.drop_append]
                rfl
              rw [htake, hdrop]
              simp [List.append_assoc]



theorem replInteriorSeg_mem {word : List Char} {reps : Segs} :
    ∀ {segs r : Segs}, replInteriorSeg word reps segs = some r →
      ∀ s ∈ r, s ∈ segs ∨ s ∈ reps := by
  intro segs
  induction segs with
  | nil => intro r h; simp [replInteriorSeg] at h
  | cons a tail ih =>
    intro r h
    match tail, h with
    | [], h => simp [replInteriorSeg] at h
    | [b], h => simp [replInteriorSeg] at h
    | b :: c :: rest, h =>
      simp only [replInteriorSeg] at h
      by_cases hb : b = word
      · rw [if_pos hb] at h
        have := Option.some.inj h
        subst this
        intro s hs
        rcases List.mem_cons.mp hs with rfl | hs
        · exact Or.inl (List.mem_cons_self _ _)
        · rcases List.mem_append.mp hs with hs | hs
          · exact Or.inr hs
          · exact Or.inl (List.mem_cons_of_mem a (by
              rcases List.mem_cons.mp hs with rfl | hs
              · exact List.mem_cons_of_mem b (List.mem_cons_self _ _)
              · exact List.mem_cons_of_mem b (List.mem_cons_of_mem c hs)))
      · rw [if_neg hb] at h
        cases hre : replInteriorSeg word reps (b :: c :: rest) with
        | none => rw [hre] at h; simp at h
        | some r2 =>
          rw [hre] at h
          simp only [Option.map_some', Option.some.injEq] at h
          subst h
          intro s hs
          rcases List.mem_cons.mp hs with rfl | hs
          · exact Or.inl (List.mem_cons_self _ _)
          · rcases ih hre s hs with hs2 | hs2
            · exact Or.inl (List.mem_cons_of_mem a hs2)
            · exact Or.inr hs2

theorem specStripRoles_elems {segs : Segs}
    (hv : ∀ s ∈ segs, s ≠ [] ∧ ∀ c ∈ s, c ≠ '/') :
    ∀ s ∈ specStripRoles segs, s ≠ [] ∧ ∀ c ∈ s, c ≠ '/' := by
  unfold specStripRoles
  cases hre : replInteriorSeg ("roles".data) [] segs with
  | some r =>
    intro s hs
    rcases replInteriorSeg_mem hre s hs with h | h
    · exact hv s h
    · simp at h
  | none =>
    match segs, hv with
    | [], hv => intro s hs; simp at hs
    | [a], hv => intro s hs; exact hv s hs
    | a :: b :: rest, hv =>
      dsimp only
      by_cases ha : a = "roles".data
      · rw [if_pos ha]
        intro s hs
        exact hv s (List.mem_cons_of_mem a hs)
      · rw [if_neg ha]
        exact hv

theorem specStripRoles_ne_nil {segs : Segs} (h : segs ≠ []) : specStripRoles segs ≠ [] := by
  unfold specStripRoles
  cases hre : replInteriorSeg ("roles".data) [] segs with
  | some r => exact replInteriorSeg_ne_nil hre
  | none =>
    match segs, h with
    | [a], _ => simp
    | a :: b :: rest, _ =>
      dsimp only
      by_cases ha : a = "roles".data
      · rw [if_pos ha]; simp
      · rw [if_neg ha]; simp

theorem specNormalizeGroupVars_elems {segs : Segs}
    (hv : ∀ s ∈ segs, s ≠ [] ∧ ∀ c ∈ s, c ≠ '/') :
    ∀ s ∈ specNormalizeGroupVars segs, s ≠ [] ∧ ∀ c ∈ s, c ≠ '/' := by
  unfold specNormalizeGroupVars
  cases hre : replInteriorSeg ("group_vars".data) ["variables".data] segs with
  | some r =>
    intro s hs
    rcases replInteriorSeg_mem hre s hs with h | h
    · exact hv s h
    · rw [List.mem_singleton.mp h]
      exact ⟨by decide, by decide⟩
  | none =>
    match segs, hv with
    | [], hv => intro s hs; simp at hs
    | [a], hv => intro s hs; exact hv s hs
    | a :: b :: rest, hv =>
      dsimp only
      by_cases ha : a = "group_vars".data
      · rw [if_pos ha]
        intro s hs
        rcases List.mem_cons.mp hs with rfl | hs
        · exact ⟨by decide, by decide⟩
        · exact hv s (List.mem_cons_of_mem a hs)
      · rw [if_neg ha]
        exact hv

theorem specNormalizeGroupVars_ne_nil {segs : Segs} (h : segs ≠ []) :
    specNormalizeGroupVars segs ≠ [] := by
  unfold specNormalizeGroupVars
  cases hre : replInteriorSeg ("group_vars".data) ["variables".data] segs with
  | some r => exact replInteriorSeg_ne_nil hre
  | none =>
    match segs, h with
    | [a], _ => simp
    | a :: b :: rest, _ =>
      dsimp only
      by_cases ha : a = "group_vars".data
      · rw [if_pos ha]; simp
      · rw [if_neg ha]; simp



theorem stripRoles_align {segs : Segs}
    (hv : ∀ s ∈ segs, s ≠ [] ∧ ∀ c ∈ s, c ≠ '/') :
    stripRolesFromPath (joinSegs segs) = joinSegs (specStripRoles segs) := by
  have hw : ∀ c ∈ ("roles".data : List Char), c ≠ '/' := by decide
  have halign := interiorReplace_align ("roles".data) ['/'] [] hw
    (fun a rest hne => by
      rw [List.nil_append, joinSegs_cons_of_ne_nil a hne]
      simp) segs hv
  have hseg : ('/' :: ("roles".data ++ ['/'])) = rolesSegment := rfl
  rw [hseg] at halign
  unfold stripRolesFromPath specStripRoles
  cases hfs : findSub rolesSegment (joinSegs segs) with
  | some idx =>
    rw [hfs] at halign
    cases hre : replInteriorSeg ("roles".data) [] segs with
    | none => rw [hre] at halign; simp at halign
    | some r =>
      rw [hre] at halign
      simp only [Option.map_some', Option.some.injEq] at halign
      exact halign
  | none =>
    rw [hfs] at halign
    simp only [Option.map_none'] at halign
    have hre : replInteriorSeg ("roles".data) [] segs = none := by
      cases hre2 : replInteriorSeg ("roles".data) [] segs with
      | none => rfl
      | some r => rw [hre2] at halign; simp at halign
    rw [hre]
    match segs, hv with
    | [], hv => simp [joinSegs, rolesPre, List.isPrefixOf]
    | [a], hv =>
      dsimp only
      have hp : rolesPre.isPrefixOf (joinSegs [a]) = false := by
        have := @notPrefix_into_segment ("roles".data) a (hv a (by simp)).2
        exact this
      rw [show joinSegs [a] = a from rfl] at hp ⊢
      rw [hp]
      rfl
    | a :: b :: rest, hv =>
      dsimp only
      have hva : ∀ c ∈ a, c ≠ '/' := (hv a (by simp)).2
      have hjoin : joinSegs (a :: b :: rest) = a ++ '/' :: joinSegs (b :: rest) := rfl
      by_cases ha : a = "roles".data
      · have hp : rolesPre.isPrefixOf (joinSegs (a :: b :: rest)) = true := by
          rw [hjoin]
          exact (prefix_seg_iff a (joinSegs (b :: rest)) hw hva).mpr ha.symm
        rw [hp, if_pos ha]
        rw [hjoin, ha]
        have hlen : ("roles".data ++ ['/']).length = rolesPre.length := rfl
        have hx : ("roles".data : List Char) ++ '/' :: joinSegs (b :: rest) =
            ("roles".data ++ ['/']) ++ joinSegs (b :: rest) := by
          simp
        rw [hx]
        exact List.drop_left' hlen
      · have hp : rolesPre.isPrefixOf (joinSegs (a :: b :: rest)) = false := by
          rw [hjoin]
          exact bool_eq_false_of_not (fun h =>
            ha ((prefix_seg_iff a (joinSegs (b :: rest)) hw hva).mp h).symm)
        rw [hp, if_neg ha]
        rfl

theorem normalizeGroupVars_align {segs : Segs}
    (hv : ∀ s ∈ segs, s ≠ [] ∧ ∀ c ∈ s, c ≠ '/') :
    normalizeGroupVarsToVariables (joinSegs segs) = joinSegs (specNormalizeGroupVars segs) := by
  have hw : ∀ c ∈ ("group_vars".data : List Char), c ≠ '/' := by decide
  have halign := interiorReplace_align ("group_vars".data) variablesSegment
    ["variables".data] hw
    (fun a rest hne => by
      have h1 : (a :: (["variables".data] ++ rest)) = a :: ("variables".data) :: rest := rfl
      rw [h1]
      have h2 : joinSegs (a :: ("variables".data) :: rest) =
          a ++ '/' :: joinSegs (("variables".data) :: rest) := rfl
      rw [h2, joinSegs_cons_of_ne_nil ("variables".data) hne]
      have h3 : variablesSegment = '/' :: ("variables".data ++ ['/']) := rfl
      rw [h3]
      simp) segs hv
  have hseg : ('/' :: ("group_vars".data ++ ['/'])) = groupVarsSegment := rfl
  rw [hseg] at halign
  unfold normalizeGroupVarsToVariables specNormalizeGroupVars
  cases hfs : findSub groupVarsSegment (joinSegs segs) with
  | some idx =>
    rw [hfs] at halign
    cases hre : replInteriorSeg ("group_vars".data) ["variables".data] segs with
    | none => rw [hre] at halign; simp at halign
    | some r =>
      rw [hre] at halign
      simp only [Option.map_some', Option.some.injEq] at halign
      exact halign
  | none =>
    rw [hfs] at halign
    simp only [Option.map_none'] at halign
    have hre : replInteriorSeg ("group_vars".data) ["variables".data] segs = none := by
      cases hre2 : replInteriorSeg ("group_vars".data) ["variables".data] segs with
      | none => rfl
      | some r => rw [hre2] at halign; simp at halign
    rw [hre]
    match segs, hv with
    | [], hv => simp [joinSegs, groupVarsPre, List.isPrefixOf]
    | [a], hv =>
      dsimp only
      have hp : groupVarsPre.isPrefixOf (joinSegs [a]) = false := by
        have := @notPrefix_into_segment ("group_vars".data) a (hv a (by simp)).2
        exact this
      rw [show joinSegs [a] = a from rfl] at hp ⊢
      rw [hp]
      rfl
    | a :: b :: rest, hv =>
      dsimp only
      have hva : ∀ c ∈ a, c ≠ '/' := (hv a (by simp)).2
      have hjoin : joinSegs (a :: b :: rest) = a ++ '/' :: joinSegs (b :: rest) := rfl
      by_cases ha : a = "group_vars".data
      · have hp : groupVarsPre.isPrefixOf (joinSegs (a :: b :: rest)) = true := by
          rw [hjoin]
          exact (prefix_seg_iff a (joinSegs (b :: rest)) hw hva).mpr ha.symm
        rw [hp, if_pos ha]
        rw [hjoin, ha]
        have hjr : joinSegs (("variables".data) :: b :: rest) =
            "variables".data ++ '/' :: joinSegs (b :: rest) := rfl
        rw [hjr]
        have hlen : ("group_vars".data ++ ['/']).length = groupVarsPre.length := rfl
        have hx : ("group_vars".data : List Char) ++ '/' :: joinSegs (b :: rest) =
            ("group_vars".data ++ ['/']) ++ joinSegs (b :: rest) := by
          simp
        rw [hx, List.drop_left' hlen]
        have hv2 : variablesPre = "variables".data ++ ['/'] := rfl
        rw [hv2]
        simp
      · have hp : groupVarsPre.isPrefixOf (joinSegs (a :: b :: rest)) = false := by
          rw [hjoin]
          exact bool_eq_false_of_not (fun h =>
            ha ((prefix_seg_iff a (joinSegs (b :: rest)) hw hva).mp h).symm)
        rw [hp, if_neg ha]
        rfl



theorem takeWhile_sepfree (a : List Char) (ha : ∀ c ∈ a, c ≠ '/') :
    a.takeWhile (fun c => c ≠ '/') = a := by
  induction a with
  | nil => rfl
  | cons c rest ih =>
    have hc : c ≠ '/' := ha c (List.mem_cons_self c rest)
    have hrest : ∀ ch ∈ rest, ch ≠ '/' := fun ch hch => ha ch (List.mem_cons_of_mem c hch)
    rw [List.takeWhile_cons]
    simp only [decide_eq_true_eq]
    rw [if_pos hc, ih hrest]

theorem takeWhile_sepfree_append (a : List Char) (ha : ∀ c ∈ a, c ≠ '/') (t : List Char) :
    (a ++ '/' :: t).takeWhile (fun c => c ≠ '/') = a := by
  induction a with
  | nil =>
    rw [List.nil_append, List.takeWhile_cons]
    simp
  | cons c rest ih =>
    have hc : c ≠ '/' := ha c (List.mem_cons_self c rest)
    have hrest : ∀ ch ∈ rest, ch ≠ '/' := fun ch hch => ha ch (List.mem_cons_of_mem c hch)
    rw [List.cons_append, List.takeWhile_cons]
    simp only [decide_eq_true_eq]
    rw [if_pos hc, ih hrest]

theorem isLayerDirectory_join {segs : Segs} (hne : segs ≠ [])
    (hv : ∀ s ∈ segs, s ≠ [] ∧ ∀ c ∈ s, c ≠ '/') :
    isLayerDirectory (joinSegs segs) = layerNames.contains (segs.headD []) := by
  match segs, hne with
  | a :: tail, _ =>
    have hva : ∀ c ∈ a, c ≠ '/' := (hv a (by simp)).2
    cases tail with
    | nil =>
      unfold isLayerDirectory
      rw [show joinSegs [a] = a from rfl, takeWhile_sepfree a hva]
      rfl
    | cons b rest =>
      unfold isLayerDirectory
      rw [show joinSegs (a :: b :: rest) = a ++ '/' :: joinSegs (b :: rest) from rfl,
        takeWhile_sepfree_append a hva]
      rfl

/-- Claim C5, counterexample: the walked directory entry whose final
segment is the group variables directory itself: the claim's
transformation renames it, the code leaves it unchanged because the
renaming only fires on a segment followed by a separator. -/
theorem c5_counterexample :
    joinSegs ["x".data, "group_vars".data] = "x/group_vars".data ∧
    adjustDestinationPath ("x/group_vars".data) true = "x/group_vars".data ∧
    joinSegs (claimAdjust ["x".data, "group_vars".data] true) = "x/variables".data ∧
    ("x/group_vars".data : List Char) ≠ "x/variables".data := by
  refine ⟨by decide, by decide, by decide, by decide⟩

/-- Claim C5 (amended): for every walked entry (a canonical relative
path, given by its segments), the destination path equals the source
path after removing the first roles segment that is followed by a
further segment, renaming the first group-variables segment that is
followed by a further segment, and, only for a legacy-layout package
whose resulting first segment is a recognized layer name, prefixing
with the src directory; modern-layout entries stop after the first two
steps, and a trailing roles or group-variables segment is left
unchanged. -/
theorem c5_adjust_amended (segs : Segs) (modern : Bool) (hv : ValidSegs segs) :
    adjustDestinationPath (joinSegs segs) modern = joinSegs (specAdjust segs modern) := by
  obtain ⟨hne, hvs⟩ := hv
  dsimp only [adjustDestinationPath, specAdjust]
  rw [stripRoles_align hvs]
  have hv1 := specStripRoles_elems hvs
  have hne1 := specStripRoles_ne_nil hne
  rw [normalizeGroupVars_align hv1]
  have hv2 := specNormalizeGroupVars_elems hv1
  have hne2 := specNormalizeGroupVars_ne_nil hne1
  cases modern with
  | true => simp
  | false =>
    simp only [Bool.false_eq_true, if_false]
    rw [isLayerDirectory_join hne2 hv2]
    by_cases hl : layerNames.contains
        ((specNormalizeGroupVars (specStripRoles segs)).headD []) = true
    · rw [hl]
      simp only [if_true]
      rw [joinSegs_cons_of_ne_nil ("src".data) hne2]
      rfl
    · rw [bool_eq_false_of_not hl]
      simp

/-- Claim C5 amended, witness: a concrete legacy-layout path with an
interior roles segment and a layer first segment. -/
theorem c5_adjust_amended_witness :
    adjustDestinationPath
        (joinSegs ["platform".data, "apps".data, "roles".data, "im".data]) false =
      joinSegs (specAdjust ["platform".data, "apps".data, "roles".data, "im".data] false) :=
  c5_adjust_amended ["platform".data, "apps".data, "roles".data, "im".data] false
    ⟨by decide, by decide⟩


/-! ## Theorems about EnsureLatest (claim C6) and manifest errors (claim C7) -/

theorem ensureLatestTag_ok_true_iff (r : TagRepo) :
    ensureLatestTag r = .ok true ↔
      ∃ h c, r.tagBefore = some h ∧ r.tagAfter = some h ∧ r.fetchOk = true ∧
        r.tagCommit = some c ∧ r.headHash = some c := by
  obtain ⟨tb, hh, fo, ta, tc⟩ := r
  constructor
  · intro h
    cases tb with
    | none => simp [ensureLatestTag] at h
    | some oldHash =>
      cases hh with
      | none => simp [ensureLatestTag] at h
      | some head =>
        cases fo with
        | false => simp [ensureLatestTag] at h
        | true =>
          cases ta with
          | none => simp [ensureLatestTag] at h
          | some newHash =>
            by_cases hne : oldHash ≠ newHash
            · simp [ensureLatestTag, hne] at h
            · push_neg at hne
              subst hne
              cases tc with
              | none => simp [ensureLatestTag] at h
              | some cid =>
                simp only [ensureLatestTag, Bool.not_true, Bool.false_eq_true, if_false,
                  ne_eq, not_true_eq_false, Except.ok.injEq] at h
                have hcid : cid = head := by
                  cases hcb : (cid == head) with
                  | false => rw [hcb] at h; exact absurd h (by simp)
                  | true => exact beq_iff_eq.mp hcb
                subst hcid
                exact ⟨oldHash, cid, rfl, rfl, rfl, rfl, rfl⟩
  · rintro ⟨h, c, hb, ha, hf, hc, hhh⟩
    simp only at hb ha hf hc hhh
    subst hb
    subst ha
    subst hf
    subst hc
    subst hhh
    simp [ensureLatestTag]

theorem ensureLatestTag_mismatch {r : TagRepo} {h1 h2 : String}
    (hb : r.tagBefore = some h1) (ha : r.tagAfter = some h2) (hne : h1 ≠ h2) :
    ensureLatestTag r ≠ .ok true := by
  intro h
  obtain ⟨x, c, hb2, ha2, _, _, _⟩ := (ensureLatestTag_ok_true_iff r).mp h
  rw [hb] at hb2
  rw [ha] at ha2
  exact hne ((Option.some.inj hb2).trans (Option.some.inj ha2).symm)

/-- Claim C6: on the tag path (requested ref differing from the
checked-out branch after the latest-target substitution), EnsureLatest
returns true exactly when, after fetching the tag refspec, the tag
hash is unchanged and the tag's commit equals the current HEAD commit;
a tag-hash mismatch yields false and never an error; a missing or
empty local directory yields false. -/
theorem c6_ensure_latest_tag
    (p : PkgDir) (ref : String) (headName : String)
    (hd : p.dirExists = true)
    (hempty : p.emptyCheck = .ok false)
    (hopen : p.openOk = true)
    (hhead : p.headName = some headName)
    (htag : headName ≠
      (if (if ref = "" then "latest" else ref) = "latest" ∧ headName ≠ "" then headName
       else ref)) :
    (EnsureLatest p ref = .ok true ↔
      (∃ h c, p.repo.tagBefore = some h ∧ p.repo.tagAfter = some h ∧
        p.repo.fetchOk = true ∧ p.repo.tagCommit = some c ∧ p.repo.headHash = some c)) ∧
    (∀ h1 h2, p.repo.tagBefore = some h1 → p.repo.tagAfter = some h2 → h1 ≠ h2 →
      EnsureLatest p ref = .ok false) ∧
    (∀ q : PkgDir, q.dirExists = false → EnsureLatest q ref = .ok false) ∧
    (∀ q : PkgDir, q.dirExists = true → q.emptyCheck = .ok true →
      EnsureLatest q ref = .ok false) := by
  have hunfold : EnsureLatest p ref =
      (match ensureLatestTag p.repo with
       | .error _ => .ok false
       | .ok b => .ok b) := by
    unfold EnsureLatest
    rw [hd, hempty, hopen, hhead]
    simp only [Bool.not_true, Bool.false_eq_true, if_false]
    rw [if_neg htag]
  refine ⟨?_, ?_, ?_, ?_⟩
  · rw [hunfold]
    constructor
    · intro h
      cases he : ensureLatestTag p.repo with
      | error e => rw [he] at h; exact absurd h (by simp)
      | ok b =>
        rw [he] at h
        have hb : b = true := by simpa using h
        subst hb
        exact (ensureLatestTag_ok_true_iff p.repo).mp he
    · intro hex
      have he := (ensureLatestTag_ok_true_iff p.repo).mpr hex
      rw [he]
  · intro h1 h2 hb ha hne
    rw [hunfold]
    cases he : ensureLatestTag p.repo with
    | error e => rfl
    | ok b =>
      cases b with
      | true => exact absurd he (ensureLatestTag_mismatch hb ha hne)
      | false => rfl
  · intro q hq
    unfold EnsureLatest
    rw [hq]
    rfl
  · intro q hq he
    unfold EnsureLatest
    rw [hq, he]
    rfl

/-- Claim C6, witness: a concrete up-to-date tag-path repository, with
the falsity cases exercised on concrete directories. -/
theorem c6_ensure_latest_tag_witness :
    (EnsureLatest pkgDirTag "v1.0.0" = .ok true ↔
      (∃ h c, pkgDirTag.repo.tagBefore = some h ∧ pkgDirTag.repo.tagAfter = some h ∧
        pkgDirTag.repo.fetchOk = true ∧ pkgDirTag.repo.tagCommit = some c ∧
        pkgDirTag.repo.headHash = some c)) ∧
    (∀ h1 h2, pkgDirTag.repo.tagBefore = some h1 → pkgDirTag.repo.tagAfter = some h2 →
      h1 ≠ h2 → EnsureLatest pkgDirTag "v1.0.0" = .ok false) ∧
    (∀ q : PkgDir, q.dirExists = false → EnsureLatest q "v1.0.0" = .ok false) ∧
    (∀ q : PkgDir, q.dirExists = true → q.emptyCheck = .ok true →
      EnsureLatest q "v1.0.0" = .ok false) :=
  c6_ensure_latest_tag pkgDirTag "v1.0.0" "main" rfl rfl rfl rfl (by decide)

/-- Claim C7, counterexample: a run whose root manifest declares one
package a whose own directory holds a malformed nested manifest; the
run completes successfully with a in the package list instead of
aborting with a parse error. -/
theorem c7_counterexample :
    c7World "a" = ManifestFile.malformed ∧
    runResolve (.wellFormed c7Root) c7World 5 = .ok [depA.ToPackage "a"] := by
  exact ⟨rfl, rfl⟩

/-- Claim C7 (amended): a malformed root manifest is a fatal parse
error and an absent one the distinguished not-exists condition, while
a malformed nested manifest found in a downloaded package is silently
skipped: the package itself is still appended and resolution
continues; an absent nested manifest behaves identically. -/
theorem c7_manifest_errors_amended
    (world : String → ManifestFile) (fuel : Nat)
    (next : List Dependency → List Package → Except DownloadErr (List Package))
    (d : Dependency) (rest : List Dependency) (packages : List Package)
    (hurl : d.source.url ≠ [])
    (hmal : world d.name = .malformed) :
    runResolve .malformed world fuel = .error (.inl .parseErr) ∧
    runResolve .absent world fuel = .error (.inl .errComposeNotExists) ∧
    Lookup .malformed = .error .parseErr ∧
    Lookup .absent = .error .errComposeNotExists ∧
    recursiveDownloadLoop next world (d :: rest) packages =
      recursiveDownloadLoop next world rest (packages ++ [d.ToPackage d.name]) := by
  refine ⟨rfl, rfl, rfl, rfl, ?_⟩
  show (if d.source.url = [] then Except.error DownloadErr.noURL
    else match world d.name with
      | .absent => recursiveDownloadLoop next world rest (packages ++ [d.ToPackage d.name])
      | .malformed => recursiveDownloadLoop next world rest (packages ++ [d.ToPackage d.name])
      | .wellFormed cfg =>
        match next cfg.dependencies packages with
        | .error e => .error e
        | .ok packages2 =>
          recursiveDownloadLoop next world rest (packages2 ++ [d.ToPackage d.name])) = _
  rw [if_neg hurl, hmal]

/-- Claim C7 amended, witness: the concrete malformed-nested world. -/
theorem c7_manifest_errors_amended_witness :
    runResolve .malformed c7World 5 = .error (.inl .parseErr) ∧
    runResolve .absent c7World 5 = .error (.inl .errComposeNotExists) ∧
    Lookup .malformed = .error .parseErr ∧
    Lookup .absent = .error .errComposeNotExists ∧
    recursiveDownloadLoop (fun ds ps => recursiveDownload c7World 4 ds ps) c7World
        [depA] [] =
      recursiveDownloadLoop (fun ds ps => recursiveDownload c7World 4 ds ps) c7World
        [] ([] ++ [depA.ToPackage "a"]) :=
  c7_manifest_errors_amended c7World 5 (fun ds ps => recursiveDownload c7World 4 ds ps)
    depA [] [] (by decide) rfl

/-! ### Claim C8: determinism of the merge output across runs -/

/-- Keys other than the overwritten one are untouched by overwriteAt. -/


theorem assocGet_overwriteAt_self {st : Entries} {p : List Char} {v e : FsEntry}
    (h : assocGet st p = some v) : assocGet (overwriteAt st p e) p = some e := by
  induction st with
  | nil => simp [assocGet] at h
  | cons kv rest ih =>
    obtain ⟨k, v0⟩ := kv
    by_cases hk : k = p
    · subst hk
      simp [overwriteAt, assocGet]
    · simp only [assocGet, if_neg hk] at h
      simp [overwriteAt, assocGet, hk, ih h]

theorem assocGet_overwriteAt_ne {st : Entries} {p q : List Char} {e : FsEntry}
    (h : p ≠ q) : assocGet (overwriteAt st p e) q = assocGet st q := by
  induction st with
  | nil => simp [overwriteAt]
  | cons kv rest ih =>
    obtain ⟨k, v0⟩ := kv
    by_cases hk : k = p
    · subst hk
      simp only [overwriteAt, if_pos rfl]
      simp [assocGet, h]
    · simp only [overwriteAt, if_neg hk]
      simp [assocGet, ih]

theorem addStrategyEntries_binding (ss : List MergeStrategy) (st : Entries)
    (e : FsEntry) (p : List Char) :
    assocGet ((addStrategyEntries ss st e p).1) p =
      strategyResultAt ss e p (assocGet st p) := by
  induction ss with
  | nil =>
    simp only [addStrategyEntries, addEntries, strategyResultAt]
    cases h : assocGet st p with
    | none => simp [assocGet_append_single_self h]
    | some v => simp [h]
  | cons ms rest ih =>
    simp only [addStrategyEntries, strategyResultAt]
    cases hs : ms.s with
    | overwriteLocalFile =>
      by_cases hm : ensureStrategyPrefixPath p ms.paths = true
      · simp only [hm, Bool.not_true, Bool.false_eq_true, if_false]
        cases h : assocGet st p with
        | none => simp [assocGet_append_single_self h]
        | some v => simp [hm, assocGet_overwriteAt_self h]
      · have hm2 : ensureStrategyPrefixPath p ms.paths = false := bool_eq_false_of_not hm
        simp only [hm2, Bool.not_false, if_true]
        exact ih
    | filterPackageFiles =>
      by_cases hc : ((assocGet st p).isNone && (ensureStrategyPrefixPath p ms.paths
          || (e.isDir && ensureStrategyContainsPath p ms.paths))) = true
      · rw [if_pos hc, if_pos hc]
        obtain ⟨h1, _⟩ := Bool.and_eq_true_iff.mp hc
        have hnone : assocGet st p = none := by
          cases h : assocGet st p with
          | none => rfl
          | some v => rw [h] at h1; simp at h1
        simp [assocGet_append_single_self hnone]
      · rw [if_neg hc, if_neg hc]
    | ignoreExtraPackageFiles =>
      by_cases hm : ensureStrategyPrefixPath p ms.paths = true
      · simp only [hm, Bool.not_true, Bool.false_eq_true, if_false]
      · have hm2 : ensureStrategyPrefixPath p ms.paths = false := bool_eq_false_of_not hm
        simp only [hm2, Bool.not_false, if_true]
        exact ih
    | undefinedStrategy => rfl
    | removeExtraLocalFiles => rfl

theorem addStrategyEntries_frame (ss : List MergeStrategy) (st : Entries)
    (e : FsEntry) (p q : List Char) (hne : p ≠ q) :
    assocGet ((addStrategyEntries ss st e p).1) q = assocGet st q := by
  induction ss with
  | nil =>
    simp only [addStrategyEntries, addEntries]
    cases h : assocGet st p with
    | none => simp [assocGet_append_single_ne hne]
    | some v => rfl
  | cons ms rest ih =>
    simp only [addStrategyEntries]
    cases hs : ms.s with
    | overwriteLocalFile =>
      by_cases hm : ensureStrategyPrefixPath p ms.paths = true
      · simp only [hm, Bool.not_true, Bool.false_eq_true, if_false]
        cases h : assocGet st p with
        | none => simp [assocGet_append_single_ne hne]
        | some v => simp [hm, assocGet_overwriteAt_ne hne]
      · have hm2 : ensureStrategyPrefixPath p ms.paths = false := bool_eq_false_of_not hm
        simp only [hm2, Bool.not_false, if_true]
        exact ih
    | filterPackageFiles =>
      by_cases hc : ((assocGet st p).isNone && (ensureStrategyPrefixPath p ms.paths
          || (e.isDir && ensureStrategyContainsPath p ms.paths))) = true
      · rw [if_pos hc]
        simp [assocGet_append_single_ne hne]
      · rw [if_neg hc]
    | ignoreExtraPackageFiles =>
      by_cases hm : ensureStrategyPrefixPath p ms.paths = true
      · simp only [hm, Bool.not_true, Bool.false_eq_true, if_false]
      · have hm2 : ensureStrategyPrefixPath p ms.paths = false := bool_eq_false_of_not hm
        simp only [hm2, Bool.not_false, if_true]
        exact ih
    | undefinedStrategy => rfl
    | removeExtraLocalFiles => rfl

theorem addEntries_binding (st : Entries) (e : FsEntry) (p : List Char) :
    assocGet ((addEntries st e p).1) p = entryResultAt none e p (assocGet st p) := by
  simp only [addEntries, entryResultAt]
  cases h : assocGet st p with
  | none => simp [assocGet_append_single_self h]
  | some v => simp [h]

theorem addEntries_frame (st : Entries) (e : FsEntry) (p q : List Char) (hne : p ≠ q) :
    assocGet ((addEntries st e p).1) q = assocGet st q := by
  simp only [addEntries]
  cases h : assocGet st p with
  | none => simp [assocGet_append_single_ne hne]
  | some v => rfl



theorem produces_iff (modern : Bool) (walk : List WalkEntry) (p : List Char) :
    p ∈ producedPaths modern walk ↔
      ∃ w ∈ walk, (!(gitPre.isPrefixOf w.path)
        && (adjustDestinationPath w.path modern == p)) = true := by
  simp only [producedPaths, List.mem_map, List.mem_filter, Bool.and_eq_true_iff, beq_iff_eq]
  constructor
  · rintro ⟨w, ⟨hw, hg⟩, hadj⟩
    exact ⟨w, hw, hg, hadj⟩
  · rintro ⟨w, hw, hg, hadj⟩
    exact ⟨w, ⟨hw, hg⟩, hadj⟩

theorem firstEntryAt_none_iff (modern : Bool) (walk : List WalkEntry) (p : List Char) :
    firstEntryAt modern walk p = none ↔ p ∉ producedPaths modern walk := by
  rw [firstEntryAt, List.find?_eq_none, produces_iff]
  push_neg
  constructor
  · intro h w hw
    exact fun hc => h w hw hc
  · intro h w hw
    exact fun hc => h w hw hc

theorem buildWalkStep_frame (s : Option (List MergeStrategy)) (pkgPath : List Char)
    (pkgName : String) (modern : Bool) (st : Entries) (w : WalkEntry) (p : List Char)
    (h : gitPre.isPrefixOf w.path = true ∨ adjustDestinationPath w.path modern ≠ p) :
    assocGet (buildWalkStep s pkgPath pkgName modern st w) p = assocGet st p := by
  by_cases hgit : gitPre.isPrefixOf w.path = true
  · simp [buildWalkStep, hgit]
  · have hg2 : gitPre.isPrefixOf w.path = false := bool_eq_false_of_not hgit
    have hne : adjustDestinationPath w.path modern ≠ p := by
      rcases h with h | h
      · exact absurd h hgit
      · exact h
    simp only [buildWalkStep, hg2, Bool.false_eq_true, if_false]
    cases s with
    | none => exact addEntries_frame st _ _ p hne
    | some ss => exact addStrategyEntries_frame ss st _ _ p hne

theorem buildWalkStep_binding (s : Option (List MergeStrategy)) (pkgPath : List Char)
    (pkgName : String) (modern : Bool) (st : Entries) (w : WalkEntry) (p : List Char)
    (hg : gitPre.isPrefixOf w.path = false)
    (hadj : adjustDestinationPath w.path modern = p) :
    assocGet (buildWalkStep s pkgPath pkgName modern st w) p =
      entryResultAt s (mkPkgEntry pkgPath pkgName modern w) p (assocGet st p) := by
  subst hadj
  simp only [buildWalkStep, hg, Bool.false_eq_true, if_false, mkPkgEntry]
  cases s with
  | none => exact addEntries_binding st _ _
  | some ss => exact addStrategyEntries_binding ss st _ _

theorem processPackage_frame (s : Option (List MergeStrategy)) (pkgPath : List Char)
    (pkgName : String) (modern : Bool) (p : List Char) :
    ∀ (walk : List WalkEntry) (st : Entries), p ∉ producedPaths modern walk →
    assocGet (processPackage s pkgPath pkgName modern st walk) p = assocGet st p := by
  intro walk
  induction walk with
  | nil => intro st _; rfl
  | cons w rest ih =>
    intro st hnp
    have hw : gitPre.isPrefixOf w.path = true ∨ adjustDestinationPath w.path modern ≠ p := by
      by_cases hgit : gitPre.isPrefixOf w.path = true
      · exact Or.inl hgit
      · refine Or.inr (fun hadj => hnp ?_)
        exact (produces_iff modern (w :: rest) p).mpr
          ⟨w, by simp, by simp [bool_eq_false_of_not hgit, hadj]⟩
    have hrest : p ∉ producedPaths modern rest := by
      intro hmem
      obtain ⟨w2, hw2, hc⟩ := (produces_iff modern rest p).mp hmem
      exact hnp ((produces_iff modern (w :: rest) p).mpr ⟨w2, by simp [hw2], hc⟩)
    show assocGet (processPackage s pkgPath pkgName modern
      (buildWalkStep s pkgPath pkgName modern st w) rest) p = assocGet st p
    rw [ih _ hrest, buildWalkStep_frame s pkgPath pkgName modern st w p hw]

theorem processPackage_binding (s : Option (List MergeStrategy)) (pkgPath : List Char)
    (pkgName : String) (modern : Bool) (p : List Char) :
    ∀ (walk : List WalkEntry) (st : Entries) (w : WalkEntry),
    (producedPaths modern walk).Nodup →
    firstEntryAt modern walk p = some w →
    assocGet (processPackage s pkgPath pkgName modern st walk) p =
      entryResultAt s (mkPkgEntry pkgPath pkgName modern w) p (assocGet st p) := by
  intro walk
  induction walk with
  | nil => intro st w _ hf; simp [firstEntryAt] at hf
  | cons w0 rest ih =>
    intro st w hnd hf
    rw [firstEntryAt, List.find?_cons] at hf
    cases hpred : (!(gitPre.isPrefixOf w0.path)
        && (adjustDestinationPath w0.path modern == p)) with
    | true =>
      rw [hpred] at hf
      have hww : w = w0 := (Option.some.inj hf).symm
      subst hww
      obtain ⟨hg, hadj⟩ := Bool.and_eq_true_iff.mp hpred
      have hg2 : gitPre.isPrefixOf w.path = false := by
        cases hgx : gitPre.isPrefixOf w.path
        · rfl
        · rw [hgx] at hg; simp at hg
      have hadj2 : adjustDestinationPath w.path modern = p := beq_iff_eq.mp hadj
      have hrest : p ∉ producedPaths modern rest := by
        have hcons : producedPaths modern (w :: rest) =
            p :: producedPaths modern rest := by
          simp [producedPaths, hg2, hadj2]
        rw [hcons] at hnd
        exact (List.nodup_cons.mp hnd).1
      show assocGet (processPackage s pkgPath pkgName modern
        (buildWalkStep s pkgPath pkgName modern st w) rest) p = _
      rw [processPackage_frame s pkgPath pkgName modern p rest _ hrest]
      exact buildWalkStep_binding s pkgPath pkgName modern st w p hg2 hadj2
    | false =>
      rw [hpred] at hf
      have hstep : gitPre.isPrefixOf w0.path = true
          ∨ adjustDestinationPath w0.path modern ≠ p := by
        by_cases hgit : gitPre.isPrefixOf w0.path = true
        · exact Or.inl hgit
        · refine Or.inr (fun hadj => ?_)
          rw [bool_eq_false_of_not hgit, hadj] at hpred
          simp at hpred
      have hndrest : (producedPaths modern rest).Nodup := by
        rcases hstep with hgit | hne
        · have : producedPaths modern (w0 :: rest) = producedPaths modern rest := by
            simp [producedPaths, hgit]
          rwa [this] at hnd
        · by_cases hgit : gitPre.isPrefixOf w0.path = true
          · have : producedPaths modern (w0 :: rest) = producedPaths modern rest := by
              simp [producedPaths, hgit]
            rwa [this] at hnd
          · have : producedPaths modern (w0 :: rest) =
                adjustDestinationPath w0.path modern :: producedPaths modern rest := by
              simp [producedPaths, bool_eq_false_of_not hgit]
            rw [this] at hnd
            exact (List.nodup_cons.mp hnd).2
      show assocGet (processPackage s pkgPath pkgName modern
        (buildWalkStep s pkgPath pkgName modern st w0) rest) p = _
      rw [ih _ w hndrest hf,
        buildWalkStep_frame s pkgPath pkgName modern st w0 p hstep]



theorem pkgProduces_false_frame (inp : BuildInput) (ps : List (String × List MergeStrategy))
    (targets : List (String × List Char)) (n : String) (st : Entries) (p : List Char)
    (h : pkgProduces inp n p = false) :
    assocGet (processPackage (assocGet ps n) (pkgPathOf inp targets n) n
      (inp.pkgFS n).modern st (inp.pkgFS n).walk) p = assocGet st p := by
  have hnp : p ∉ producedPaths (inp.pkgFS n).modern (inp.pkgFS n).walk := by
    intro hmem
    rw [pkgProduces, decide_eq_false_iff_not] at h
    exact h hmem
  exact processPackage_frame _ _ _ _ p _ st hnp

theorem buildMergeLoop_frame (inp : BuildInput) (ps : List (String × List MergeStrategy))
    (targets : List (String × List Char)) (p : List Char) :
    ∀ (items : List String) (st : Entries),
    (∀ n ∈ items, n ≠ DependencyRoot → pkgProduces inp n p = false) →
    assocGet (buildMergeLoop inp ps targets st items) p = assocGet st p := by
  intro items
  induction items with
  | nil => intro st _; rfl
  | cons n rest ih =>
    intro st hno
    by_cases hr : n = DependencyRoot
    · show assocGet (buildMergeLoop inp ps targets
        (if n = DependencyRoot then st else _) rest) p = _
      rw [if_pos hr]
      exact ih st (fun m hm => hno m (by simp [hm]))
    · show assocGet (buildMergeLoop inp ps targets
        (if n = DependencyRoot then st else _) rest) p = _
      rw [if_neg hr]
      rw [ih _ (fun m hm => hno m (by simp [hm]))]
      exact pkgProduces_false_frame inp ps targets n st p (hno n (by simp) hr)

theorem mergeStepResult_of_produces (inp : BuildInput)
    (ps : List (String × List MergeStrategy)) (targets : List (String × List Char))
    (n : String) (st : Entries) (p : List Char)
    (hnd : (producedPaths (inp.pkgFS n).modern (inp.pkgFS n).walk).Nodup)
    (hprod : pkgProduces inp n p = true) :
    assocGet (processPackage (assocGet ps n) (pkgPathOf inp targets n) n
      (inp.pkgFS n).modern st (inp.pkgFS n).walk) p =
      mergeStepResult inp ps targets n p (assocGet st p) := by
  have hmem : p ∈ producedPaths (inp.pkgFS n).modern (inp.pkgFS n).walk := by
    rw [pkgProduces, decide_eq_true_eq] at hprod
    exact hprod
  cases hf : firstEntryAt (inp.pkgFS n).modern (inp.pkgFS n).walk p with
  | none => exact absurd ((firstEntryAt_none_iff _ _ _).mp hf) (fun hc => hc hmem)
  | some w =>
    rw [mergeStepResult, hf]
    exact processPackage_binding _ _ _ _ p _ st w hnd hf

theorem buildMergeLoop_canonical (inp : BuildInput)
    (ps : List (String × List MergeStrategy)) (targets : List (String × List Char))
    (p : List Char) :
    ∀ (items : List String) (st : Entries),
    items.Nodup →
    (∀ n ∈ items, (producedPaths (inp.pkgFS n).modern (inp.pkgFS n).walk).Nodup) →
    (∀ m n, m ∈ items → n ∈ items → m ≠ DependencyRoot → n ≠ DependencyRoot →
      pkgProduces inp m p = true → pkgProduces inp n p = true → m = n) →
    assocGet (buildMergeLoop inp ps targets st items) p =
      canonicalFrom inp ps targets items p (assocGet st p) := by
  intro items
  induction items with
  | nil => intro st _ _ _; rfl
  | cons n rest ih =>
    intro st hnd hpnd huniq
    have hndr : rest.Nodup := (List.nodup_cons.mp hnd).2
    have hnr : n ∉ rest := (List.nodup_cons.mp hnd).1
    by_cases hr : n = DependencyRoot
    · show assocGet (buildMergeLoop inp ps targets
        (if n = DependencyRoot then st else _) rest) p = _
      rw [if_pos hr]
      have hpred : (!(n == DependencyRoot) && pkgProduces inp n p) = false := by
        simp [hr]
      rw [canonicalFrom, List.find?_cons, hpred]
      exact ih st hndr (fun m hm => hpnd m (by simp [hm]))
        (fun a b ha hb => huniq a b (by simp [ha]) (by simp [hb]))
    · show assocGet (buildMergeLoop inp ps targets
        (if n = DependencyRoot then st else _) rest) p = _
      rw [if_neg hr]
      by_cases hprod : pkgProduces inp n p = true
      · have hpred : (!(n == DependencyRoot) && pkgProduces inp n p) = true := by
          simp [hr, hprod]
        rw [canonicalFrom, List.find?_cons, hpred]
        have hnone : ∀ m ∈ rest, m ≠ DependencyRoot → pkgProduces inp m p = false := by
          intro m hm hmr
          by_cases hmp : pkgProduces inp m p = true
          · have := huniq m n (by simp [hm]) (by simp) hmr hr hmp hprod
            exact absurd (this ▸ hm) hnr
          · exact bool_eq_false_of_not hmp
        rw [buildMergeLoop_frame inp ps targets p rest _ hnone]
        exact mergeStepResult_of_produces inp ps targets n st p (hpnd n (by simp)) hprod
      · have hprod2 : pkgProduces inp n p = false := bool_eq_false_of_not hprod
        have hpred : (!(n == DependencyRoot) && pkgProduces inp n p) = false := by
          simp [hprod2]
        rw [canonicalFrom, List.find?_cons, hpred]
        rw [ih _ hndr (fun m hm => hpnd m (by simp [hm]))
          (fun a b ha hb => huniq a b (by simp [ha]) (by simp [hb]))]
        rw [pkgProduces_false_frame inp ps targets n st p hprod2]
        rfl

theorem find_eq_of_unique_perm {α : Type} (q : α → Bool) (l1 l2 : List α)
    (hmem : ∀ x, x ∈ l1 ↔ x ∈ l2)
    (huniq : ∀ a b, a ∈ l1 → b ∈ l1 → q a = true → q b = true → a = b) :
    l1.find? q = l2.find? q := by
  cases h1 : l1.find? q with
  | none =>
    cases h2 : l2.find? q with
    | none => rfl
    | some b =>
      have hb : b ∈ l1 := (hmem b).mpr (List.mem_of_find?_eq_some h2)
      have := List.find?_eq_none.mp h1 b hb
      exact absurd (List.find?_some h2) this
  | some a =>
    have ha : a ∈ l2 := (hmem a).mp (List.mem_of_find?_eq_some h1)
    cases h2 : l2.find? q with
    | none => exact absurd (List.find?_some h1) (List.find?_eq_none.mp h2 a ha)
    | some b =>
      have hb : b ∈ l1 := (hmem b).mpr (List.mem_of_find?_eq_some h2)
      rw [huniq a b (List.mem_of_find?_eq_some h1) hb
        (List.find?_some h1) (List.find?_some h2)]

theorem canonicalFrom_congr (inp : BuildInput)
    (ps : List (String × List MergeStrategy)) (targets : List (String × List Char))
    (p : List Char) (l1 l2 : List String) (v? : Option FsEntry)
    (hmem : ∀ x, x ∈ l1 ↔ x ∈ l2)
    (huniq : ∀ m n, m ∈ l1 → n ∈ l1 → m ≠ DependencyRoot → n ≠ DependencyRoot →
      pkgProduces inp m p = true → pkgProduces inp n p = true → m = n) :
    canonicalFrom inp ps targets l1 p v? = canonicalFrom inp ps targets l2 p v? := by
  rw [canonicalFrom, canonicalFrom,
    find_eq_of_unique_perm (fun n => !(n == DependencyRoot) && pkgProduces inp n p)
      l1 l2 hmem ?_]
  intro a b ha hb hqa hqb
  obtain ⟨hna, hpa⟩ := Bool.and_eq_true_iff.mp hqa
  obtain ⟨hnb, hpb⟩ := Bool.and_eq_true_iff.mp hqb
  have hna2 : a ≠ DependencyRoot := by
    intro hc; rw [hc] at hna; simp at hna
  have hnb2 : b ≠ DependencyRoot := by
    intro hc; rw [hc] at hnb; simp at hnb
  exact huniq a b ha hb hna2 hnb2 hpa hpb



/-- Claim C8, counterexample: for a fixed input with two independent
sibling packages producing the same destination, two admissible
iteration orders of the Go edge map - both possible in distinct runs -
materialize different bytes at that destination, so the output tree is
not run-deterministic. -/
theorem c8_counterexample :
    Schedule.Admissible reverseRootSchedule ∧
    buildOutput c8Input idSchedule ("conf.yaml".data) =
      some ("pkgs/a/latest/conf.yaml".data) ∧
    buildOutput c8Input reverseRootSchedule ("conf.yaml".data) =
      some ("pkgs/b/latest/conf.yaml".data) ∧
    buildOutput c8Input idSchedule ("conf.yaml".data) ≠
      buildOutput c8Input reverseRootSchedule ("conf.yaml".data) := by
  refine ⟨?_, by rfl, by rfl, by decide⟩
  intro n l
  by_cases h : n = DependencyRoot
  · simp only [reverseRootSchedule, if_pos h]
    exact l.reverse_perm
  · simp only [reverseRootSchedule, if_neg h]
    exact List.Perm.refl l

/-- Claim C8 amended: the merged output tree is byte-identical across
runs (schedules) provided no two distinct packages reachable from the
synthetic root produce the same destination path and no single package
walk hits one destination twice; the unresolved sibling order only
shows when independent siblings collide on a destination. -/
theorem c8_sibling_order_amended (inp : BuildInput) (σ1 σ2 : Schedule)
    (h1 : Schedule.Admissible σ1) (h2 : Schedule.Admissible σ2)
    (items1 items2 : List String)
    (ht1 : (buildDependenciesGraph inp.packages).topSort σ1 DependencyRoot = some items1)
    (ht2 : (buildDependenciesGraph inp.packages).topSort σ2 DependencyRoot = some items2)
    (hnd : ∀ n, Reach (buildDependenciesGraph inp.packages) DependencyRoot n →
      (producedPaths (inp.pkgFS n).modern (inp.pkgFS n).walk).Nodup)
    (huniq : ∀ (p : List Char) (m n : String),
      Reach (buildDependenciesGraph inp.packages) DependencyRoot m →
      Reach (buildDependenciesGraph inp.packages) DependencyRoot n →
      m ≠ DependencyRoot → n ≠ DependencyRoot →
      pkgProduces inp m p = true → pkgProduces inp n p = true → m = n) :
    ∀ p, buildOutput inp σ1 p = buildOutput inp σ2 p := by
  intro p
  obtain ⟨_, _, hnodup1, hr1, hc1⟩ := topSort_spec h1 ht1
  obtain ⟨_, _, hnodup2, hr2, hc2⟩ := topSort_spec h2 ht2
  have hmem : ∀ x, x ∈ items1 ↔ x ∈ items2 :=
    fun x => ⟨fun hx => hc2 x (hr1 x hx), fun hx => hc1 x (hr2 x hx)⟩
  rw [buildOutput, buildOutput]
  dsimp only [build]
  rw [ht1, ht2]
  dsimp only [Option.getD]
  rw [output, output]
  rw [buildMergeLoop_canonical inp _ _ p items1 _ hnodup1
    (fun n hn => hnd n (hr1 n hn))
    (fun m n hm hn => huniq p m n (hr1 m hm) (hr1 n hn))]
  rw [buildMergeLoop_canonical inp _ _ p items2 _ hnodup2
    (fun n hn => hnd n (hr2 n hn))
    (fun m n hm hn => huniq p m n (hr2 m hm) (hr2 n hn))]
  rw [canonicalFrom_congr inp _ _ p items1 items2 _ hmem
    (fun m n hm hn => huniq p m n (hr1 m hm) (hr1 n hn))]



/-- Claim C8 amended, witness: the two-sibling disjoint-path input,
instantiated at both the identity schedule and the root-reversing one. -/
theorem c8_sibling_order_amended_witness :
    buildOutput c8InputDisjoint idSchedule ("a.yaml".data) =
      buildOutput c8InputDisjoint reverseRootSchedule ("a.yaml".data) ∧
    buildOutput c8InputDisjoint idSchedule ("a.yaml".data) =
      some ("pkgs/a/latest/a.yaml".data) := by
  have hadm1 : Schedule.Admissible idSchedule := fun n l => List.Perm.refl l
  have hadm2 : Schedule.Admissible reverseRootSchedule := by
    intro n l
    by_cases h : n = DependencyRoot
    · simp only [reverseRootSchedule, if_pos h]
      exact l.reverse_perm
    · simp only [reverseRootSchedule, if_neg h]
      exact List.Perm.refl l
  have hts1 : (buildDependenciesGraph c8InputDisjoint.packages).topSort idSchedule
      DependencyRoot = some ["a", "b", DependencyRoot] := by rfl
  have hreach : ∀ n, Reach (buildDependenciesGraph c8InputDisjoint.packages)
      DependencyRoot n → n = "a" ∨ n = "b" ∨ n = DependencyRoot := by
    intro n hn
    have h3 := (topSort_spec hadm1 hts1).2.2.2.2 n hn
    simpa using h3
  have hpa : producedPaths (c8InputDisjoint.pkgFS "a").modern
      (c8InputDisjoint.pkgFS "a").walk = ["a.yaml".data] := by rfl
  have hpb : producedPaths (c8InputDisjoint.pkgFS "b").modern
      (c8InputDisjoint.pkgFS "b").walk = ["b.yaml".data] := by rfl
  have hnd : ∀ n, Reach (buildDependenciesGraph c8InputDisjoint.packages)
      DependencyRoot n →
      (producedPaths (c8InputDisjoint.pkgFS n).modern
        (c8InputDisjoint.pkgFS n).walk).Nodup := by
    intro n hn
    rcases hreach n hn with h | h | h
    · rw [h, hpa]; exact List.nodup_singleton _
    · rw [h, hpb]; exact List.nodup_singleton _
    · rw [h]; exact List.nodup_nil
  have huniq : ∀ (p : List Char) (m n : String),
      Reach (buildDependenciesGraph c8InputDisjoint.packages) DependencyRoot m →
      Reach (buildDependenciesGraph c8InputDisjoint.packages) DependencyRoot n →
      m ≠ DependencyRoot → n ≠ DependencyRoot →
      pkgProduces c8InputDisjoint m p = true →
      pkgProduces c8InputDisjoint n p = true → m = n := by
    intro p m n hm hn hmr hnr hpm hpn
    have hdisj : ∀ k, (k = "a" ∨ k = "b" ∨ k = DependencyRoot) → k ≠ DependencyRoot →
        pkgProduces c8InputDisjoint k p = true →
        (k = "a" ∧ p = "a.yaml".data) ∨ (k = "b" ∧ p = "b.yaml".data) := by
      intro k hk hkr hpk
      rcases hk with h | h | h
      · left
        refine ⟨h, ?_⟩
        rw [h, pkgProduces, decide_eq_true_eq, hpa, List.mem_singleton] at hpk
        exact hpk
      · right
        refine ⟨h, ?_⟩
        rw [h, pkgProduces, decide_eq_true_eq, hpb, List.mem_singleton] at hpk
        exact hpk
      · exact absurd h hkr
    have hab : ("a.yaml".data : List Char) ≠ "b.yaml".data := by decide
    rcases hdisj m (hreach m hm) hmr hpm with ⟨hm1, hp1⟩ | ⟨hm1, hp1⟩ <;>
      rcases hdisj n (hreach n hn) hnr hpn with ⟨hn1, hp2⟩ | ⟨hn1, hp2⟩
    · rw [hm1, hn1]
    · exact absurd (hp1.symm.trans hp2) hab
    · exact absurd (hp2.symm.trans hp1) hab
    · rw [hm1, hn1]
  refine ⟨c8_sibling_order_amended c8InputDisjoint idSchedule reverseRootSchedule
    hadm1 hadm2 ["a", "b", DependencyRoot] ["b", "a", DependencyRoot]
    hts1 (by rfl) hnd huniq ("a.yaml".data), by rfl⟩

/-! ### Claims C9 and C10: the baseline walk's exclusions -/

/-- A path carrying the version-control prefix cannot have the
reserved internal-state folder as its root segment. -/
theorem pathRoot_git_not_plasma {p : List Char} (h : gitPre.isPrefixOf p = true) :
    excludedFolders.contains (pathRoot p) = false := by
  obtain ⟨t, ht⟩ := List.isPrefixOf_iff_prefix.mp h
  subst ht
  show (excludedFolders.contains (pathRoot (('.' :: 'g' :: 'i' :: 't' :: []) ++ t))) = false
  simp [pathRoot, excludedFolders, List.takeWhile_cons]

/-- Claim C9: a baseline walk entry under the version-control folder
is never excluded - the reserved-folder filter does not match it, in
skip-unversioned mode the versioned check is bypassed for it whatever
the versioned map holds, so it is copied into the entry collection -
while every package walk entry under that folder is always skipped;
the hypotheses state the claim's own exclusion list (the entry is not
the manifest file and matches no remove-extra-local-files strategy). -/
theorem c9_git_tree_baseline (ls : List MergeStrategy) (cv : Bool)
    (versioned : List (List Char)) (platformDir : List Char) (w : WalkEntry)
    (hgit : gitPre.isPrefixOf w.path = true)
    (hbase : (!w.isDir && excludedFiles.contains (pathBase w.path)) = false)
    (hstrat : (ls.any fun s => decide (s.s = MergeStrategyType.removeExtraLocalFiles)
        && ensureStrategyPrefixPath w.path s.paths) = false) :
    baselineIncluded ls cv versioned w = true ∧
    baselinePass ls cv versioned platformDir [w] =
      [(w.path, mkBaselineEntry platformDir w)] ∧
    ∀ (s : Option (List MergeStrategy)) (pkgPath : List Char) (pkgName : String)
      (modern : Bool) (st : Entries),
      buildWalkStep s pkgPath pkgName modern st w = st := by
  have h1 : baselineIncluded ls cv versioned w = true := by
    rw [baselineIncluded, if_neg, if_neg, if_neg, if_neg]
    · rw [hgit]; simp
    · rw [hstrat]; simp
    · rw [hbase]; simp
    · rw [pathRoot_git_not_plasma hgit]; simp
  refine ⟨h1, ?_, ?_⟩
  · simp [baselinePass, baselineWalkStep, h1]
  · intro s pkgPath pkgName modern st
    simp [buildWalkStep, hgit]

/-- Claim C9, witness: the version-control config file of the local
baseline, with skip-unversioned mode on and an empty versioned map. -/
theorem c9_git_tree_baseline_witness :
    baselineIncluded [] true [] ⟨".git/config".data, false⟩ = true ∧
    baselinePass [] true [] ("base".data) [⟨".git/config".data, false⟩] =
      [(".git/config".data, mkBaselineEntry ("base".data) ⟨".git/config".data, false⟩)] ∧
    buildWalkStep none ("p".data) "a" true [] ⟨".git/config".data, false⟩ = [] := by
  obtain ⟨h1, h2, h3⟩ := c9_git_tree_baseline [] true [] ("base".data)
    ⟨".git/config".data, false⟩ (by decide) (by decide) (by decide)
  exact ⟨h1, h2, h3 none ("p".data) "a" true []⟩

/-- Claim C10: when skip-unversioned mode is requested but the git
oracle fails (repository cannot be opened or HEAD read), the check is
silently disabled - the configuration equals the flag-off one, every
baseline filter decision equals the flag-off decision, and the whole
build equals the build with the flag off; no error is raised and the
baseline is not emptied. -/
theorem c10_skip_unversioned_fallback (inp : BuildInput) (σ : Schedule)
    (hgit : inp.gitOpen = Except.error ()) :
    versionedConfig true inp.gitOpen = (false, []) ∧
    (∀ (ls : List MergeStrategy) (w : WalkEntry),
      baselineIncluded ls (versionedConfig true inp.gitOpen).1
        (versionedConfig true inp.gitOpen).2 w = baselineIncluded ls false [] w) ∧
    build { inp with skipNotVersioned := true } σ =
      build { inp with skipNotVersioned := false } σ := by
  refine ⟨?_, ?_, ?_⟩
  · rw [hgit]; rfl
  · intro ls w
    rw [hgit]
    rfl
  · dsimp only [build]
    rw [hgit]
    rfl

/-- Claim C10, witness: the two-package input with a failing git
oracle, compared against the flag-off run under the identity
schedule, plus a concrete baseline file the disabled check keeps. -/
theorem c10_skip_unversioned_fallback_witness :
    versionedConfig true ({ c8Input with gitOpen := Except.error () } : BuildInput).gitOpen
      = (false, []) ∧
    baselineIncluded [] (versionedConfig true
        ({ c8Input with gitOpen := Except.error () } : BuildInput).gitOpen).1
      (versionedConfig true
        ({ c8Input with gitOpen := Except.error () } : BuildInput).gitOpen).2
      ⟨"x.txt".data, false⟩ = baselineIncluded [] false [] ⟨"x.txt".data, false⟩ ∧
    build { ({ c8Input with gitOpen := Except.error () } : BuildInput) with
        skipNotVersioned := true } idSchedule =
      build { ({ c8Input with gitOpen := Except.error () } : BuildInput) with
        skipNotVersioned := false } idSchedule := by
  obtain ⟨h1, h2, h3⟩ :=
    c10_skip_unversioned_fallback { c8Input with gitOpen := Except.error () } idSchedule rfl
  exact ⟨h1, h2 [] ⟨"x.txt".data, false⟩, h3⟩

end PlasmaModel
